import Mathlib

/-!
# The superkit installer (`install.go`)

A shallow embedding of the installer and the properties settled about it.

The installer is sequential glue around three collaborators: the file system, the
`git clone` subprocess and the random source.  They are modelled as follows.

* Text (arguments, file contents, messages) is a list of characters.
* The file system is a listing of `(location, node)` pairs; a location is the list of
  path components from the root, a node is a directory or a regular file with its
  content.  A path name is resolved component by component from the root or the working
  directory; a component is looked up only in an existing directory.
  Symbolic links, permissions and device errors are outside the model: an operation
  fails only for structural reasons (missing entry, wrong kind of node, existing target).
* `git clone` is an input of the run: either an error text, or the listing of the
  repository that ends up below the directory `superkit`.
* The random source is an input of the run: either unavailable, or a list of bytes.
* Standard output and standard error are recorded as a list of messages.  `log.Fatal`
  records its text without the timestamp that the logger puts in front.  A run-time
  panic is recorded as the way the run halts; the crash report of the Go runtime is not
  added to the messages.
* Completed file-system calls other than `stat` are recorded in a trace.
-/

namespace Superkit

/-- Text: program arguments, file contents and messages. -/
abbrev Str := List Char

/-! ## Constants (install.go:17-21) -/

def replaceID : Str := "AABBCCDD".toList

def bootstrapFolderName : Str := "bootstrap".toList

def reponame : Str := "https://github.com/anthdm/superkit.git".toList

/-- The literal `"superkit"` of lines 48, 61 and 165: the directory `git clone` creates. -/
def workDir : Str := "superkit".toList

/-- The literal `"{{app_secret}}"` of line 112. -/
def secretPlaceholder : Str := "{{app_secret}}".toList

/-! ## Library functions on text (`strings`, `encoding/hex`, `path`) -/

/-- Go `strings.Index(s, substr) >= 0`, that is `strings.Contains`. -/
def stringsContains : Str → Str → Bool
  | [], substr => substr.isPrefixOf []
  | c :: t, substr => substr.isPrefixOf (c :: t) || stringsContains t substr

/-- The scan of `strings.Replace` with a non-empty `old`: the leftmost occurrence is
replaced, and the scan resumes right after it.  The first argument bounds the number
of steps; `s.length` steps always suffice. -/
def replaceFrom (old new : Str) : Nat → Str → Str
  | 0, s => s
  | fuel + 1, s =>
    if old.isPrefixOf s then new ++ replaceFrom old new fuel (s.drop old.length)
    else
      match s with
      | [] => []
      | c :: t => c :: replaceFrom old new fuel t

/-- Go `strings.ReplaceAll(s, old, new)` (equally `strings.Replace(s, old, new, -1)`):
all non-overlapping instances of `old` replaced by `new`.  With an empty `old` the
replacement is inserted before every character and at the end. -/
def stringsReplaceAll (s old new : Str) : Str :=
  if old = new then s
  else if old = [] then new ++ s.flatMap (fun c => c :: new)
  else replaceFrom old new s.length s

/-- The digit table of `encoding/hex`. -/
def hextable : Str := "0123456789abcdef".toList

/-- Go `hex.EncodeToString`: for each byte `v` the digits `hextable[v>>4]` and
`hextable[v&0x0f]`.  A byte is a natural number taken modulo 256. -/
def hexEncodeToString (src : List Nat) : Str :=
  src.flatMap (fun v => [hextable.getD (v % 256 / 16) '0', hextable.getD (v % 256 % 16) '0'])

/-- Split a text at every occurrence of a separator character. -/
def splitOn (sep : Char) : Str → List Str
  | [] => [[]]
  | c :: t =>
    if c = sep then [] :: splitOn sep t
    else
      match splitOn sep t with
      | [] => [[c]]
      | h :: r => (c :: h) :: r

/-- One step of `path.Clean` over the components seen so far. -/
def cleanStep (rooted : Bool) (acc : List Str) (c : Str) : List Str :=
  if c = [] ∨ c = ['.'] then acc
  else if c = ['.', '.'] then
    match acc.getLast? with
    | some top => if top = ['.', '.'] then acc ++ [c] else acc.dropLast
    | none => if rooted then acc else acc ++ [c]
  else acc ++ [c]

/-- Go `path.Clean`: the shortest path name equivalent to the argument by purely lexical
processing. -/
def pathClean (p : Str) : Str :=
  if p = [] then ['.']
  else
    let rooted := p.head? = some '/'
    let out := List.intercalate ['/'] ((splitOn '/' p).foldl (cleanStep rooted) [])
    if rooted then '/' :: out
    else if out = [] then ['.'] else out

/-- Go `path.Join`: the non-empty elements joined with slashes and cleaned; the empty
text when every element is empty. -/
def pathJoin (elem : List Str) : Str :=
  let parts := elem.filter (fun e => e ≠ [])
  if parts = [] then [] else pathClean (List.intercalate ['/'] parts)

/-! ## The file system -/

/-- A location: the path components from the root. -/
abbrev Path := List Str

inductive Node where
  | dir
  | file (content : Str)
  deriving DecidableEq

/-- A file-system state: the listing of all entries. -/
abbrev FS := List (Path × Node)

inductive Errno where
  | ENOENT
  | ENOTDIR
  | EEXIST
  | EISDIR
  | EINVAL
  | ENOTEMPTY
  deriving DecidableEq

/-- Go error values: `*fs.PathError`, `*os.LinkError`, and errors that are only a text
(a failed subprocess, an unavailable random source). -/
inductive Err where
  | path (op : Str) (name : Str) (errno : Errno)
  | link (op : Str) (old new : Str) (errno : Errno)
  | other (text : Str)
  deriving DecidableEq

def Errno.text : Errno → Str
  | .ENOENT => "no such file or directory".toList
  | .ENOTDIR => "not a directory".toList
  | .EEXIST => "file exists".toList
  | .EISDIR => "is a directory".toList
  | .EINVAL => "invalid argument".toList
  | .ENOTEMPTY => "directory not empty".toList

/-- The result of `err.Error()`. -/
def Err.text : Err → Str
  | .path op name e => op ++ " ".toList ++ name ++ ": ".toList ++ e.text
  | .link op old new e => op ++ " ".toList ++ old ++ " ".toList ++ new ++ ": ".toList ++ e.text
  | .other t => t

/-- Whether an error value wraps `ENOENT`. -/
def Err.isNotExist : Err → Bool
  | .path _ _ .ENOENT => true
  | .link _ _ _ .ENOENT => true
  | _ => false

/-- The `err` of a Go result pair `(value, err)`; `none` is `nil`. -/
def errOf {α : Type} : Except Err α → Option Err
  | .ok _ => none
  | .error e => some e

/-- Go `os.IsNotExist(err)` and `errors.Is(err, fs.ErrNotExist)`: false for `nil`. -/
def osIsNotExist : Option Err → Bool
  | some e => e.isNotExist
  | none => false

/-- The node listed at a location, if any. -/
def FS.find : FS → Path → Option Node
  | [], _ => none
  | (q, n) :: rest, p => if q = p then some n else FS.find rest p

/-- Whether `p` is the location `root` or lies beneath it. -/
def isUnder (root p : Path) : Bool := root.isPrefixOf p

/-- The proper ancestors of a location, from the root downwards. -/
def ancestors : Path → List Path
  | [] => []
  | c :: t => [] :: (ancestors t).map (fun q => c :: q)

/-- Whether some proper ancestor of the location is a regular file. -/
def FS.blocked (fs : FS) (p : Path) : Bool :=
  (ancestors p).any (fun q => match fs.find q with
    | some (.file _) => true
    | _ => false)

/-- The outcome of `lstat` at a location. -/
def FS.stat (fs : FS) (p : Path) : Except Errno Node :=
  match fs.find p with
  | some n => .ok n
  | none => if fs.blocked p then .error .ENOTDIR else .error .ENOENT

/-- One step of path resolution, as the kernel walks a path name.  The state is the
location reached and whether it is already known to be a directory (the starting
directory, and what `.` and `..` lead to).  Before a component is looked up in a
location that was reached by a name, that location must be an existing directory:
otherwise the walk fails with `ENOENT` or `ENOTDIR`.  An empty component (doubled or
trailing slash) is treated like `.`. -/
def resolveStep (fs : FS) (acc : Except Errno (Path × Bool)) (c : Str) :
    Except Errno (Path × Bool) :=
  match acc with
  | .error e => .error e
  | .ok (cur, known) =>
    match (if known then .ok .dir else fs.stat cur) with
    | .error e => .error e
    | .ok (.file _) => .error .ENOTDIR
    | .ok .dir =>
      if c = [] ∨ c = ['.'] then .ok (cur, true)
      else if c = ['.', '.'] then .ok (cur.dropLast, true)
      else .ok (cur ++ [c], false)

/-- The location a path name denotes in a file system for a process whose working
directory is `cwd`: the components are walked from the root or from the working
directory; the last one need not exist.  The empty name denotes nothing (`ENOENT`). -/
def resolve (fs : FS) (cwd : Path) (name : Str) : Except Errno Path :=
  if name = [] then .error .ENOENT
  else
    match (splitOn '/' name).foldl (resolveStep fs)
        (.ok (if name.head? = some '/' then [] else cwd, true)) with
    | .error e => .error e
    | .ok (p, _) => .ok p

/-- The name of a location, for error texts. -/
def renderPath (p : Path) : Str := '/' :: List.intercalate ['/'] p

/-- The entries of a listing after the node at `old`, with all beneath it, has moved to
`new`, replacing what was listed at `new`. -/
def FS.move (fs : FS) (old new : Path) : FS :=
  (fs.filter (fun e => !isUnder new e.1)).map (fun e =>
    if isUnder old e.1 then (new ++ e.1.drop old.length, e.2) else e)

/-- The system call `rename(old, new)` on locations. -/
def FS.rename (fs : FS) (old new : Path) : Except Errno FS :=
  match fs.stat old with
  | .error e => .error e
  | .ok src =>
    if old = new then .ok fs
    else
      match fs.stat new.dropLast with
      | .error e => .error e
      | .ok (.file _) => .error .ENOTDIR
      | .ok .dir =>
        match src, fs.find new with
        | .dir, some (.file _) => .error .ENOTDIR
        | .dir, some .dir =>
          if isUnder old new then .error .EINVAL
          else if (fs.filter (fun e => isUnder new e.1 && e.1 != new)).isEmpty then
            .ok (fs.move old new)
          else .error .ENOTEMPTY
        | .dir, none => if isUnder old new then .error .EINVAL else .ok (fs.move old new)
        | .file _, some .dir => .error .EISDIR
        | .file _, _ => .ok (fs.move old new)

/-- All entries at or beneath a location removed. -/
def FS.removeAll (fs : FS) (p : Path) : FS := fs.filter (fun e => !isUnder p e.1)

/-- The node of a regular file given a new content; a directory stays as it is. -/
def Node.withContent (c : Str) : Node → Node
  | .file _ => .file c
  | .dir => .dir

/-- The content of the regular file at a location replaced. -/
def FS.setContent (fs : FS) (p : Path) (c : Str) : FS :=
  fs.map (fun e => if e.1 = p then (e.1, e.2.withContent c) else e)

/-! ## Program state and control -/

inductive Stream where
  | stdout
  | stderr
  deriving DecidableEq

structure Msg where
  stream : Stream
  text : Str
  deriving DecidableEq

/-- Completed file-system calls (all but `stat`) and subprocess runs. -/
inductive Effect where
  | read (p : Path)
  | openTrunc (p : Path)
  | write (p : Path)
  | rename (old new : Path)
  | removeAll (p : Path)
  | clone
  deriving DecidableEq

structure St where
  cwd : Path
  fs : FS
  out : List Msg
  trace : List Effect
  deriving DecidableEq

/-- How a run stops before `main` returns: `os.Exit(code)`, or the run-time panic of an
index expression out of range. -/
inductive Halt where
  | exit (code : Nat)
  | panicIndex (index length : Nat)
  deriving DecidableEq

inductive Res (α : Type) where
  | ok (val : α) (st : St)
  | halt (h : Halt) (st : St)
  deriving DecidableEq

/-- A piece of program: a state transformer that returns a value or halts the process. -/
def Prog (α : Type) : Type := St → Res α

def Prog.pure {α : Type} (a : α) : Prog α := fun s => .ok a s

def Prog.bind {α β : Type} (x : Prog α) (f : α → Prog β) : Prog β := fun s =>
  match x s with
  | .ok a s1 => f a s1
  | .halt h s1 => .halt h s1

instance : Monad Prog where
  pure := Prog.pure
  bind := Prog.bind

def Res.st {α : Type} : Res α → St
  | .ok _ s => s
  | .halt _ s => s

/-- The exit status of the process: 0 when `main` returns, 2 after a panic. -/
def Res.exitCode {α : Type} : Res α → Nat
  | .ok _ _ => 0
  | .halt (.exit c) _ => c
  | .halt (.panicIndex _ _) _ => 2

/-! ## Library calls with effects (`fmt`, `log`, `os`, `os/exec`, `crypto/rand`, `path/filepath`) -/

/-- Go `fmt.Println`: the operands separated by spaces, then a newline, on standard output. -/
def fmtPrintln (operands : List Str) : Prog Unit := fun s =>
  .ok () { s with out := s.out ++ [⟨.stdout, List.intercalate [' '] operands ++ ['\n']⟩] }

/-- Go `fmt.Printf` with an already formatted text. -/
def fmtPrint (text : Str) : Prog Unit := fun s =>
  .ok () { s with out := s.out ++ [⟨.stdout, text⟩] }

/-- Go `os.Exit`. -/
def osExit {α : Type} (code : Nat) : Prog α := fun s => .halt (.exit code) s

/-- Go `log.Fatal`: the text on standard error, then `os.Exit(1)`. -/
def logFatal {α : Type} (text : Str) : Prog α := fun s =>
  .halt (.exit 1) { s with out := s.out ++ [⟨.stderr, text ++ ['\n']⟩] }

/-- The index expression `args[i]`: a run-time panic when `i` is out of range. -/
def index (args : List Str) (i : Nat) : Prog Str := fun s =>
  match args.get? i with
  | some a => .ok a s
  | none => .halt (.panicIndex i args.length) s

/-- The result of `os.Stat` on a path name in a state. -/
def statName (s : St) (name : Str) : Except Err Node :=
  match resolve s.fs s.cwd name with
  | .error e => .error (.path "stat".toList name e)
  | .ok p =>
    match s.fs.stat p with
    | .error e => .error (.path "stat".toList name e)
    | .ok n => .ok n

/-- Go `os.Stat`. -/
def osStat (name : Str) : Prog (Except Err Node) := fun s => .ok (statName s name) s

/-- The check Go `os.Rename` makes before the system call: when the new name is an
existing directory, the error of `lstat` on the old name if there is one, and otherwise
`EEXIST` unless the two names are different names of the same directory. -/
def renameCheck (fs : FS) (sameName : Bool) (old new : Path) : Option Errno :=
  match fs.find new with
  | some .dir =>
    match fs.stat old with
    | .error e => some e
    | .ok _ => if sameName || old != new then some .EEXIST else none
  | _ => none

/-- Go `os.Rename`. -/
def osRename (oldname newname : Str) : Prog (Option Err) := fun s =>
  match resolve s.fs s.cwd oldname, resolve s.fs s.cwd newname with
  | .ok o, .ok n =>
    match renameCheck s.fs (newname == oldname) o n with
    | some e => .ok (some (.link "rename".toList oldname newname e)) s
    | none =>
      match s.fs.rename o n with
      | .error e => .ok (some (.link "rename".toList oldname newname e)) s
      | .ok fs1 => .ok none { s with fs := fs1, trace := s.trace ++ [.rename o n] }
  | .error e, _ => .ok (some (.link "rename".toList oldname newname e)) s
  | .ok _, .error e => .ok (some (.link "rename".toList oldname newname e)) s

/-- Whether a path name is `.` or ends in `/.` (Go `endsWithDot`). -/
def endsWithDot (name : Str) : Bool :=
  name = ['.'] || ['.', '/'].isPrefixOf name.reverse

/-- Go `os.RemoveAll`: removes the path and everything beneath it; no error when the
path does not exist. -/
def osRemoveAll (name : Str) : Prog (Option Err) := fun s =>
  if name = [] then .ok none s
  else if endsWithDot name then .ok (some (.path "RemoveAll".toList name .EINVAL)) s
  else
    match resolve s.fs s.cwd name with
    | .error .ENOENT => .ok none s
    | .error e => .ok (some (.path "unlinkat".toList name e)) s
    | .ok p => .ok none { s with fs := s.fs.removeAll p, trace := s.trace ++ [.removeAll p] }

/-- Reading the whole regular file at a location; `name` is the path name used in the
error text. -/
def readFileAt (name : Str) (p : Path) : Prog (Except Err Str) := fun s =>
  match s.fs.stat p with
  | .error e => .ok (.error (.path "open".toList name e)) s
  | .ok .dir => .ok (.error (.path "read".toList name .EISDIR)) s
  | .ok (.file c) => .ok (.ok c) { s with trace := s.trace ++ [.read p] }

/-- Go `os.ReadFile`. -/
def osReadFile (name : Str) : Prog (Except Err Str) := fun s =>
  match resolve s.fs s.cwd name with
  | .error e => .ok (.error (.path "open".toList name e)) s
  | .ok p => readFileAt name p s

/-- Opening the regular file at a location with `O_WRONLY|O_TRUNC`: the file must exist
and is emptied; the handle is its location. -/
def openTruncAt (name : Str) (p : Path) : Prog (Except Err Path) := fun s =>
  match s.fs.stat p with
  | .error e => .ok (.error (.path "open".toList name e)) s
  | .ok .dir => .ok (.error (.path "open".toList name .EISDIR)) s
  | .ok (.file _) =>
    .ok (.ok p) { s with fs := s.fs.setContent p [], trace := s.trace ++ [.openTrunc p] }

/-- Go `os.OpenFile(name, os.O_WRONLY|os.O_TRUNC, 0644)`. -/
def osOpenFile (name : Str) : Prog (Except Err Path) := fun s =>
  match resolve s.fs s.cwd name with
  | .error e => .ok (.error (.path "open".toList name e)) s
  | .ok p => openTruncAt name p s

/-- Go `(*os.File).WriteString` on a fresh handle: the text is written at offset 0, what
the file holds beyond it stays. -/
def fileWriteString (file : Path) (text : Str) : Prog (Option Err) := fun s =>
  match s.fs.find file with
  | some (.file old) =>
    .ok none { s with fs := s.fs.setContent file (text ++ old.drop text.length),
                      trace := s.trace ++ [.write file] }
  | _ => .ok (some (.path "write".toList (renderPath file) .EINVAL)) s

/-- Whether `git clone` accepts a destination: it is absent or an empty directory. -/
def cloneTargetFree (fs : FS) (dst : Path) : Bool :=
  match fs.find dst with
  | some .dir => (fs.filter (fun e => isUnder dst e.1 && e.1 != dst)).isEmpty
  | some (.file _) => false
  | none => !fs.blocked dst

/-- The subprocess `git clone <reponame>` run in the working directory: on success the
repository listing appears below `superkit`.  Git refuses a destination that is a file
or a non-empty directory. -/
def gitClone (repo : Except Str FS) : Prog (Option Err) := fun s =>
  match repo with
  | .error t => .ok (some (.other t)) s
  | .ok tree =>
    let dst := s.cwd ++ [workDir]
    if cloneTargetFree s.fs dst then
      .ok none { s with
        fs := s.fs.filter (fun e => e.1 != dst) ++
                ((dst, Node.dir) :: (tree.filter (fun e => e.1 != [])).map (fun e => (dst ++ e.1, e.2))),
        trace := s.trace ++ [.clone] }
    else .ok (some (.other "exit status 128".toList)) s

/-- Go `rand.Read(buf)`: the buffer filled with bytes of the random source. -/
def randRead (rand : Option (List Nat)) (buf : List Nat) : List Nat × Option Err :=
  match rand with
  | none => (buf, some (.other "crypto/rand: random source unavailable".toList))
  | some src => ((List.range buf.length).map (fun i => src.getD i 0 % 256), none)

/-- The visits of Go `filepath.Walk` below a root that exists: the callback is called on
every entry at or beneath the root and the walk stops at the first error.  The listing
order stands for the lexical order of the walk. -/
def walkList (fn : Path → Option Node → Option Err → Prog (Option Err)) :
    List (Path × Node) → Prog (Option Err)
  | [] => fun s => .ok none s
  | (p, n) :: rest => fun s =>
    match fn p (some n) none s with
    | .ok none s1 => walkList fn rest s1
    | .ok (some e) s1 => .ok (some e) s1
    | .halt h s1 => .halt h s1

/-- Go `filepath.Walk(root, fn)`. -/
def filepathWalk (root : Str) (fn : Path → Option Node → Option Err → Prog (Option Err)) :
    Prog (Option Err) := fun s =>
  match resolve s.fs s.cwd root with
  | .error e => fn [] none (some (.path "lstat".toList root e)) s
  | .ok r =>
    match s.fs.stat r with
    | .error e => fn r none (some (.path "lstat".toList root e)) s
    | .ok _ => walkList fn (s.fs.filter (fun e => isUnder r e.1)) s

/-! ## The program (install.go) -/

/-- install.go:170-180. -/
def usage : Prog Unit := do
  fmtPrintln []
  fmtPrintln ["install requires your project name as the first argument".toList]
  fmtPrintln ["with optional path to install the project as the second argument".toList]
  fmtPrintln []
  fmtPrintln ["Usage:".toList]
  fmtPrintln ["\tgo run superkit/install.go [your_project_name] [optional_path_to_install_project]".toList]
  fmtPrintln []
  osExit 1

/-- install.go:163-168. -/
def cleanUp : Prog Unit := do
  match ← osRemoveAll workDir with
  | some err => logFatal err.text
  | none => pure ()

/-- install.go:131-137. -/
def generateSecret (rand : Option (List Nat)) : Prog Str := do
  let bytes := List.replicate 32 0
  match randRead rand bytes with
  | (_, some err) => logFatal err.text
  | (bytes, none) => pure (hexEncodeToString bytes)

/-- The callback of install.go:65-92. -/
def walkFn (projectName : Str) (fullPath : Path) (info : Option Node) (err : Option Err) :
    Prog (Option Err) :=
  match err with
  | some e => pure (some e)
  | none =>
    if info = some .dir then pure none
    else do
      match ← readFileAt (renderPath fullPath) fullPath with
      | .error e => pure (some e)
      | .ok b =>
        let contentStr := b
        if stringsContains contentStr replaceID then do
          let replacedContent := stringsReplaceAll contentStr replaceID projectName
          match ← openTruncAt (renderPath fullPath) fullPath with
          | .error e => pure (some e)
          | .ok file =>
            match ← fileWriteString file replacedContent with
            | some e => pure (some e)
            | none => pure none
        else pure none

/-- The argument handling of install.go:24-43: the project name and the install path. -/
def mainArgs (args : List Str) : Prog (Str × Str) := do
  if args.length = 0 then usage
  let projectName ← index args 0
  let arg1 ← index args 1
  if arg1 ≠ [] then do
    let installPath := arg1
    let err := errOf (← osStat installPath)
    if osIsNotExist err then logFatal "install path does not exist".toList
    let err := errOf (← osStat (pathJoin [installPath, projectName]))
    if !osIsNotExist err then logFatal "project folder already exists".toList
    pure (projectName, installPath)
  else pure (projectName, [])

/-- The scaffolding of install.go:45-103: stale clone removed, clone, promotion of the
bootstrap folder, substitution walk, activation of the environment file. -/
def mainScaffold (repo : Except Str FS) (projectName installPath : Str) : Prog Str := do
  let projectPath := pathJoin [installPath, projectName]
  let err := errOf (← osStat workDir)
  if !osIsNotExist err then do
    fmtPrintln ["-- deleting superkit folder cause its already present".toList]
    cleanUp
  fmtPrintln ["-- cloning".toList, reponame]
  match ← gitClone repo with
  | some err => logFatal err.text
  | none => pure ()
  fmtPrintln ["-- renaming bootstrap ->".toList, projectName]
  match ← osRename (pathJoin [workDir, bootstrapFolderName]) projectPath with
  | some err => logFatal err.text
  | none => pure ()
  match ← filepathWalk (pathJoin [projectPath]) (walkFn projectName) with
  | some err => logFatal err.text
  | none => pure ()
  fmtPrintln ["-- renaming .env.local -> .env".toList]
  match ← osRename (pathJoin [projectPath, ".env.local".toList])
      (pathJoin [projectPath, ".env".toList]) with
  | some err => logFatal err.text
  | none => pure ()
  pure projectPath

/-- The secret injection of install.go:105-121. -/
def mainSecret (rand : Option (List Nat)) (projectPath : Str) : Prog Unit := do
  fmtPrintln ["-- generating secure secret".toList]
  let pathToDotEnv := pathJoin [projectPath, ".env".toList]
  match ← osReadFile pathToDotEnv with
  | .error err => logFatal err.text
  | .ok b =>
    let secret ← generateSecret rand
    let replacedContent := stringsReplaceAll b secretPlaceholder secret
    match ← osOpenFile pathToDotEnv with
    | .error err => logFatal err.text
    | .ok file =>
      match ← fileWriteString file replacedContent with
      | some err => logFatal err.text
      | none => pure ()

/-- install.go:23-129. -/
def main (repo : Except Str FS) (rand : Option (List Nat)) (args : List Str) : Prog Unit := do
  let (projectName, installPath) ← mainArgs args
  let projectPath ← mainScaffold repo projectName installPath
  mainSecret rand projectPath
  fmtPrint ("-- project (".toList ++ projectPath ++ ") successfully installed!\n".toList)
  cleanUp

/-! ## Notions used to state the properties -/

/-- Whether a character is a lowercase hexadecimal digit. -/
def isLowerHexDigit (c : Char) : Bool :=
  ('0' ≤ c && c ≤ '9') || ('a' ≤ c && c ≤ 'f')

/-- The value of a lowercase hexadecimal digit. -/
def hexDigitValue (c : Char) : Option Nat :=
  if '0' ≤ c ∧ c ≤ '9' then some (c.toNat - '0'.toNat)
  else if 'a' ≤ c ∧ c ≤ 'f' then some (c.toNat - 'a'.toNat + 10)
  else none

/-- Reading a hexadecimal text back: two digits per byte, the high nibble first. -/
def hexDecode : Str → Option (List Nat)
  | [] => some []
  | [_] => none
  | hi :: lo :: rest =>
    match hexDigitValue hi, hexDigitValue lo, hexDecode rest with
    | some h, some l, some r => some ((h * 16 + l) :: r)
    | _, _, _ => none

/-- The messages of `usage`, all on standard output. -/
def usageMessages : List Msg :=
  [ ⟨.stdout, "\n".toList⟩,
    ⟨.stdout, "install requires your project name as the first argument\n".toList⟩,
    ⟨.stdout, "with optional path to install the project as the second argument\n".toList⟩,
    ⟨.stdout, "\n".toList⟩,
    ⟨.stdout, "Usage:\n".toList⟩,
    ⟨.stdout, "\tgo run superkit/install.go [your_project_name] [optional_path_to_install_project]\n".toList⟩,
    ⟨.stdout, "\n".toList⟩ ]

/-- A small initial state: the working directory `/home` and nothing else. -/
def demoSt : St := ⟨["home".toList], [([], .dir), (["home".toList], .dir)], [], []⟩

/-- A small repository listing with a bootstrap folder. -/
def demoRepo : FS :=
  [ (["bootstrap".toList], .dir),
    (["bootstrap".toList, "go.mod".toList], .file "module AABBCCDD\n".toList),
    (["bootstrap".toList, ".env.local".toList], .file "S={{app_secret}}\n".toList),
    (["README".toList], .file "x".toList) ]

/-- The text `r` is the text `s` with every occurrence of `old`, taken from left to
right without overlap, replaced by `new`: either `s` has no occurrence and `r` is `s`,
or `s` is `pre ++ old ++ rest` where no occurrence begins within `pre`, and `r` is
`pre ++ new` followed by the replacement of `rest`. -/
inductive ReplacedAll (old new : Str) : Str → Str → Prop where
  | done (s : Str) : stringsContains s old = false → ReplacedAll old new s s
  | step (pre rest r : Str) : stringsContains (pre ++ old.dropLast) old = false →
      ReplacedAll old new rest r → ReplacedAll old new (pre ++ old ++ rest) (pre ++ new ++ r)

/-- Whether one of two texts begins the other. -/
def beginsEither (u v : Str) : Bool := u.isPrefixOf v || v.isPrefixOf u

/-- Whether an occurrence of `a` and an occurrence of `b` in one text can share a
character: some non-empty ending of `a` begins `b` or begins with `b`, or some non-empty
ending of `b` begins `a` or begins with `a`.  (This covers `a` inside `b`, `b` inside `a`,
and an end of one running into the start of the other.) -/
def canOverlap (a b : Str) : Bool :=
  a.tails.any (fun u => !u.isEmpty && beginsEither u b) ||
  b.tails.any (fun v => !v.isEmpty && beginsEither v a)

/-- A listing that names every location at most once. -/
def FS.keysNodup (fs : FS) : Prop := (fs.map Prod.fst).Nodup

instance (fs : FS) : Decidable fs.keysNodup := by
  unfold FS.keysNodup
  infer_instance

/-- A listing in which every entry other than the root has a directory as its parent. -/
def FS.parentsListed (fs : FS) : Prop :=
  ∀ e ∈ fs, e.1 ≠ [] → fs.find e.1.dropLast = some .dir

instance (fs : FS) : Decidable fs.parentsListed := by
  unfold FS.parentsListed
  infer_instance

/-- What a visit of the substitution walk makes of a node: a regular file that holds the
placeholder gets every occurrence replaced by the project name. -/
def substNode (projectName : Str) : Node → Node
  | .dir => .dir
  | .file c =>
    if stringsContains c replaceID then .file (stringsReplaceAll c replaceID projectName)
    else .file c

/-- The calls a visit of the substitution walk makes on an entry. -/
def visitTrace (p : Path) : Node → List Effect
  | .dir => []
  | .file c =>
    if stringsContains c replaceID then [.read p, .openTrunc p, .write p] else [.read p]

/-- A state after the promotion of the bootstrap folder to `/home/myapp`. -/
def demoProjectSt : St :=
  ⟨["home".toList],
   [ ([], .dir),
     (["home".toList], .dir),
     (["home".toList, "myapp".toList], .dir),
     (["home".toList, "myapp".toList, "go.mod".toList], .file "module AABBCCDD\n".toList),
     (["home".toList, "myapp".toList, "README".toList], .file "hello".toList),
     (["home".toList, "myapp".toList, ".env".toList], .file "S={{app_secret}}\n".toList) ],
   [], []⟩

/-- A state with one project file whose content holds the placeholder right after a
proper beginning of it. -/
def overlapSt (projectName : Str) : St :=
  ⟨["home".toList],
   [ ([], .dir),
     (["home".toList], .dir),
     (["home".toList, projectName], .dir),
     (["home".toList, projectName, "main.go".toList], .file "AABBCCDAABBCCDD".toList) ],
   [], []⟩

/-- Whether `os.Stat` on a path name fails with an error that says the path does not
exist (the test of install.go:36). -/
def statNotExist (s : St) (name : Str) : Bool := osIsNotExist (errOf (statName s name))

/-- A state in which the project folder `/home/myapp` already exists. -/
def takenSt : St :=
  ⟨["home".toList],
   [ ([], .dir),
     (["home".toList], .dir),
     (["home".toList, "myapp".toList], .dir),
     (["home".toList, "myapp".toList, "notes.txt".toList], .file "keep me".toList) ],
   [], []⟩

/-! ## Basic facts about the control structure -/

@[simp] theorem bind_apply {α β : Type} (x : Prog α) (f : α → Prog β) (s : St) :
    (x >>= f) s = match x s with
      | .ok a s1 => f a s1
      | .halt h s1 => .halt h s1 := rfl

@[simp] theorem pure_apply {α : Type} (a : α) (s : St) : (pure a : Prog α) s = .ok a s := rfl

theorem usage_apply (s : St) :
    usage s = .halt (.exit 1) { s with out := s.out ++ usageMessages } := by
  simp [usage, fmtPrintln, osExit, usageMessages, List.intercalate]

theorem bind_ok {α β : Type} {x : Prog α} {f : α → Prog β} {s s2 : St} {b : β}
    (h : (x >>= f) s = .ok b s2) : ∃ a s1, x s = .ok a s1 ∧ f a s1 = .ok b s2 := by
  rw [bind_apply] at h
  cases hx : x s with
  | ok a s1 =>
    rw [hx] at h
    exact ⟨a, s1, rfl, h⟩
  | halt hl s1 =>
    rw [hx] at h
    cases h

/-! ## Hexadecimal encoding -/

theorem hextable_digit (i : Nat) (h : i < 16) :
    isLowerHexDigit (hextable.getD i '0') = true ∧ hexDigitValue (hextable.getD i '0') = some i := by
  interval_cases i <;> decide

theorem hexEncode_length (bs : List Nat) : (hexEncodeToString bs).length = 2 * bs.length := by
  induction bs with
  | nil => rfl
  | cons b t ih =>
    simp only [hexEncodeToString, List.flatMap_cons, List.length_append, List.length_cons,
      List.length_nil] at ih ⊢
    omega

theorem hexEncode_digits (bs : List Nat) :
    ∀ c ∈ hexEncodeToString bs, isLowerHexDigit c = true := by
  induction bs with
  | nil => intro c hc; simp [hexEncodeToString] at hc
  | cons b t ih =>
    intro c hc
    simp only [hexEncodeToString, List.flatMap_cons, List.mem_append, List.mem_cons,
      List.mem_singleton, List.not_mem_nil, or_false] at hc ih
    rcases hc with (rfl | rfl) | hc
    · exact (hextable_digit _ (by omega)).1
    · exact (hextable_digit _ (by omega)).1
    · exact ih c hc

theorem hexDecode_encode (bs : List Nat) (h : ∀ b ∈ bs, b < 256) :
    hexDecode (hexEncodeToString bs) = some bs := by
  induction bs with
  | nil => rfl
  | cons b t ih =>
    have hb : b < 256 := h b (List.mem_cons_self _ _)
    have ht : hexDecode (hexEncodeToString t) = some t :=
      ih (fun x hx => h x (List.mem_cons_of_mem _ hx))
    have e : hexEncodeToString (b :: t) =
        hextable.getD (b % 256 / 16) '0' :: hextable.getD (b % 256 % 16) '0' ::
          hexEncodeToString t := by
      simp [hexEncodeToString]
    rw [e, hexDecode, (hextable_digit _ (by omega : b % 256 / 16 < 16)).2,
      (hextable_digit _ (by omega : b % 256 % 16 < 16)).2, ht]
    simp only [Option.some.injEq, List.cons.injEq, and_true]
    omega

theorem range_map_getD (bs : List Nat) (h : ∀ b ∈ bs, b < 256) :
    (List.range bs.length).map (fun i => bs.getD i 0 % 256) = bs := by
  apply List.ext_getElem
  · simp
  · intro i h1 h2
    simp only [List.length_map, List.length_range] at h1
    simp only [List.getElem_map, List.getElem_range]
    rw [List.getD_eq_getElem _ _ h1]
    exact Nat.mod_eq_of_lt (h _ (List.getElem_mem _))

theorem generateSecret_bytes (bytes : List Nat) (s : St)
    (hlen : bytes.length = 32) (hbyte : ∀ b ∈ bytes, b < 256) :
    generateSecret (some bytes) s = .ok (hexEncodeToString bytes) s := by
  have hr : (List.range 32).map (fun i => bytes.getD i 0 % 256) = bytes := by
    have := range_map_getD bytes hbyte
    rwa [hlen] at this
  simp only [generateSecret, randRead, List.length_replicate, hr]
  rfl

/-! ## Text replacement -/

theorem isPrefixOf_nil_of_ne {old : Str} (h : old ≠ []) : old.isPrefixOf ([] : Str) = false := by
  cases old with
  | nil => exact absurd rfl h
  | cons a t => rfl

theorem stringsContains_cons (c : Char) (t sub : Str) :
    stringsContains (c :: t) sub = (sub.isPrefixOf (c :: t) || stringsContains t sub) := rfl

/-- A text that begins the result of a replacement scan already begins the scanned text,
provided none of its non-empty endings can begin where a copy of `new` begins. -/
theorem begins_of_begins_replaceFrom (old new : Str) :
    ∀ (fuel : Nat) (s w : Str),
      (∀ v, v ≠ [] → v <:+ w → ∀ X, ¬ v <+: new ++ X) →
      w <+: replaceFrom old new fuel s → w <+: s := by
  intro fuel
  induction fuel with
  | zero => intro s w _ h; simpa [replaceFrom] using h
  | succ n ih =>
    intro s w hw h
    cases w with
    | nil => exact List.nil_prefix
    | cons x w1 =>
      unfold replaceFrom at h
      split at h
      · exact absurd h (hw _ (List.cons_ne_nil _ _) List.suffix_rfl _)
      · cases s with
        | nil => simp at h
        | cons c t =>
          simp only [List.cons_prefix_cons] at h ⊢
          refine ⟨h.1, ih t w1 ?_ h.2⟩
          intro v hv hs X
          exact hw v hv (hs.trans (List.suffix_cons x w1)) X

/-- No occurrence of `old` survives in front of a text free of it when `old` cannot begin
anywhere inside the part put in front. -/
theorem stringsContains_append_false (old : Str) :
    ∀ (u Y : Str), stringsContains Y old = false →
      (∀ v, v ≠ [] → v <:+ u → ¬ old <+: v ++ Y) →
      stringsContains (u ++ Y) old = false := by
  intro u
  induction u with
  | nil => intro Y h _; simpa using h
  | cons a t ih =>
    intro Y h hu
    rw [List.cons_append, stringsContains_cons, Bool.or_eq_false_iff]
    constructor
    · have := hu (a :: t) (List.cons_ne_nil _ _) List.suffix_rfl
      rw [List.cons_append, ← List.isPrefixOf_iff_prefix] at this
      exact Bool.eq_false_iff.mpr this
    · exact ih Y h (fun v hv hs => hu v hv (hs.trans (List.suffix_cons a t)))

/-- The replacement scan leaves no occurrence of `old` when copies of `new` cannot
overlap an occurrence: `old` cannot begin inside a copy, and no ending of `old` other
than `old` itself can begin where a copy begins. -/
theorem stringsContains_replaceFrom (old new : Str) (hold : old ≠ [])
    (K1 : ∀ u, u ≠ [] → u <:+ new → ∀ X, ¬ old <+: u ++ X)
    (K2 : ∀ v, v ≠ [] → v <:+ old.tail → ∀ X, ¬ v <+: new ++ X) :
    ∀ (fuel : Nat) (s : Str), s.length ≤ fuel →
      stringsContains (replaceFrom old new fuel s) old = false := by
  intro fuel
  induction fuel with
  | zero =>
    intro s hs
    have : s = [] := List.length_eq_zero.mp (Nat.le_zero.mp hs)
    subst this
    simp [replaceFrom, stringsContains, isPrefixOf_nil_of_ne hold]
  | succ n ih =>
    intro s hs
    unfold replaceFrom
    split
    · rename_i hp
      have hlen : 1 ≤ old.length := by
        cases old with
        | nil => exact absurd rfl hold
        | cons a t => simp
      apply stringsContains_append_false
      · apply ih
        rw [List.length_drop]
        omega
      · intro v hv hs2
        exact K1 v hv hs2 _
    · rename_i hp
      cases s with
      | nil => simp [stringsContains, isPrefixOf_nil_of_ne hold]
      | cons c t =>
        simp only
        rw [stringsContains_cons, Bool.or_eq_false_iff]
        refine ⟨?_, ih t (by simpa using hs)⟩
        cases old with
        | nil => exact absurd rfl hold
        | cons o old1 =>
          rw [Bool.eq_false_iff]
          intro hc
          apply hp
          rw [List.isPrefixOf_iff_prefix] at hc ⊢
          simp only [List.cons_prefix_cons] at hc ⊢
          exact ⟨hc.1, begins_of_begins_replaceFrom (o :: old1) new n t old1 K2 hc.2⟩

theorem beginsEither_of_prefixes {u v w : Str} (hu : u <+: w) (hv : v <+: w) :
    beginsEither u v = true := by
  unfold beginsEither
  rcases List.prefix_or_prefix_of_prefix hu hv with h | h
  · rw [List.isPrefixOf_iff_prefix.mpr h]
    rfl
  · rw [List.isPrefixOf_iff_prefix.mpr h, Bool.or_true]

theorem not_beginsEither_of_canOverlap_left {a b u : Str} (h : canOverlap a b = false)
    (hu : u <:+ a) (hne : u ≠ []) : beginsEither u b = false := by
  unfold canOverlap at h
  rw [Bool.or_eq_false_iff] at h
  have := List.any_eq_false.mp h.1 u ((List.mem_tails u a).mpr hu)
  cases u with
  | nil => exact absurd rfl hne
  | cons c t => simpa using this

theorem not_beginsEither_of_canOverlap_right {a b v : Str} (h : canOverlap a b = false)
    (hv : v <:+ b) (hne : v ≠ []) : beginsEither v a = false := by
  unfold canOverlap at h
  rw [Bool.or_eq_false_iff] at h
  have := List.any_eq_false.mp h.2 v ((List.mem_tails v b).mpr hv)
  cases v with
  | nil => exact absurd rfl hne
  | cons c t => simpa using this

/-- `strings.ReplaceAll` leaves no occurrence of a non-empty `old` when `new` and `old`
cannot overlap. -/
theorem stringsContains_replaceAll_of_no_overlap (s old new : Str) (hold : old ≠ [])
    (h : canOverlap new old = false) :
    stringsContains (stringsReplaceAll s old new) old = false := by
  have hne : old ≠ new := by
    intro e
    have hb := not_beginsEither_of_canOverlap_right h (List.suffix_refl old) hold
    rw [← e] at hb
    rw [beginsEither_of_prefixes (List.prefix_refl old) (List.prefix_refl old)] at hb
    cases hb
  unfold stringsReplaceAll
  rw [if_neg hne, if_neg hold]
  apply stringsContains_replaceFrom _ _ hold _ _ _ _ (le_refl _)
  · intro u hu hs X hp
    have hb := not_beginsEither_of_canOverlap_left h hs hu
    rw [beginsEither_of_prefixes (List.prefix_append u X) hp] at hb
    cases hb
  · intro v hv hs X hp
    have hs2 : v <:+ old := hs.trans (List.tail_suffix old)
    have hb := not_beginsEither_of_canOverlap_right h hs2 hv
    rw [beginsEither_of_prefixes hp (List.prefix_append new X)] at hb
    cases hb

/-- `strings.ReplaceAll` leaves no occurrence of `old` when neither the first nor the
last character of `old` occurs in `new` and `new` is long enough that no copy of it
fits strictly inside an occurrence. -/
theorem stringsContains_replaceAll_ends (s old new : Str) (hold : old ≠ [])
    (h1 : ∀ c, old.head? = some c → c ∉ new) (h3 : ∀ c, old.getLast? = some c → c ∉ new)
    (hlen : old.length ≤ new.length + 1) :
    stringsContains (stringsReplaceAll s old new) old = false := by
  obtain ⟨o, old1, rfl⟩ := List.exists_cons_of_ne_nil hold
  have ho : o ∉ new := h1 o rfl
  by_cases hne : (o :: old1) = new
  · exact absurd (hne ▸ List.mem_cons_self o old1) ho
  unfold stringsReplaceAll
  rw [if_neg hne, if_neg hold]
  apply stringsContains_replaceFrom _ _ hold _ _ _ _ (le_refl _)
  · intro u hu hs X hp
    obtain ⟨b, u1, rfl⟩ := List.exists_cons_of_ne_nil hu
    simp only [List.cons_append, List.cons_prefix_cons] at hp
    apply ho
    rw [hp.1]
    exact hs.subset (List.mem_cons_self _ _)
  · intro v hv hs X hp
    simp only [List.tail_cons] at hs
    have hvl : v.length ≤ new.length := by
      have := hs.length_le
      simp only [List.length_cons] at hlen
      omega
    have hvn : v <+: new :=
      List.prefix_of_prefix_length_le hp (List.prefix_append new X) hvl
    have hlast : (o :: old1).getLast? = some (v.getLast hv) := by
      obtain ⟨pre, hpre⟩ := hs
      have : o :: old1 = (o :: pre) ++ v := by rw [List.cons_append, hpre]
      rw [this, List.getLast?_append_of_ne_nil _ hv, List.getLast?_eq_getLast _ hv]
    exact h3 _ hlast (hvn.subset (List.getLast_mem hv))

theorem stringsContains_of_short (old : Str) :
    ∀ (t : Str), t.length < old.length → stringsContains t old = false := by
  intro t
  induction t with
  | nil =>
    intro h
    have : old ≠ [] := by
      intro e
      rw [e] at h
      simp at h
    simp [stringsContains, isPrefixOf_nil_of_ne this]
  | cons c t ih =>
    intro h
    rw [stringsContains_cons, Bool.or_eq_false_iff]
    constructor
    · rw [Bool.eq_false_iff]
      intro hp
      rw [List.isPrefixOf_iff_prefix] at hp
      have := hp.length_le
      omega
    · apply ih
      simp only [List.length_cons] at h
      omega

theorem replacedAll_cons (old new : Str) (c : Char) (t r : Str)
    (h : ReplacedAll old new t r) (hp : old.isPrefixOf (c :: t) = false) :
    ReplacedAll old new (c :: t) (c :: r) := by
  cases h with
  | done _ hc =>
    apply ReplacedAll.done
    rw [stringsContains_cons, hp, hc]
    rfl
  | step pre rest r1 hpre hrest =>
    have := ReplacedAll.step (c :: pre) rest r1 ?_ hrest
    · simpa using this
    · rw [List.cons_append, stringsContains_cons, hpre, Bool.or_false, Bool.eq_false_iff]
      intro hq
      rw [Bool.eq_false_iff] at hp
      apply hp
      rw [List.isPrefixOf_iff_prefix] at hq ⊢
      refine hq.trans ?_
      rw [List.cons_prefix_cons]
      refine ⟨rfl, ?_⟩
      rw [List.append_assoc]
      apply (List.prefix_append_right_inj pre).mpr
      exact (List.dropLast_prefix old).trans (List.prefix_append old rest)

theorem replacedAll_replaceFrom (old new : Str) (hold : old ≠ []) :
    ∀ (fuel : Nat) (s : Str), s.length ≤ fuel →
      ReplacedAll old new s (replaceFrom old new fuel s) := by
  intro fuel
  induction fuel with
  | zero =>
    intro s hs
    have : s = [] := List.length_eq_zero.mp (Nat.le_zero.mp hs)
    subst this
    apply ReplacedAll.done
    simp [stringsContains, isPrefixOf_nil_of_ne hold]
  | succ n ih =>
    intro s hs
    have hlen : 1 ≤ old.length := by
      cases old with
      | nil => exact absurd rfl hold
      | cons a t => simp
    unfold replaceFrom
    split
    · rename_i hp
      rw [List.isPrefixOf_iff_prefix, List.prefix_iff_eq_append] at hp
      have hrest : ReplacedAll old new (s.drop old.length)
          (replaceFrom old new n (s.drop old.length)) := by
        apply ih
        rw [List.length_drop]
        omega
      have hshort : stringsContains ([] ++ old.dropLast) old = false := by
        apply stringsContains_of_short
        simp only [List.nil_append, List.length_dropLast]
        omega
      have := ReplacedAll.step [] _ _ hshort hrest
      simp only [List.nil_append] at this
      rw [hp] at this
      exact this
    · rename_i hp
      cases s with
      | nil =>
        apply ReplacedAll.done
        simp [stringsContains, isPrefixOf_nil_of_ne hold]
      | cons c t =>
        simp only
        apply replacedAll_cons
        · exact ih t (by simpa using hs)
        · exact Bool.eq_false_iff.mpr hp

theorem replaceFrom_same (old : Str) :
    ∀ (fuel : Nat) (s : Str), replaceFrom old old fuel s = s := by
  intro fuel
  induction fuel with
  | zero => intro s; rfl
  | succ n ih =>
    intro s
    unfold replaceFrom
    split
    · rename_i hp
      rw [List.isPrefixOf_iff_prefix, List.prefix_iff_eq_append] at hp
      rw [ih, hp]
    · cases s with
      | nil => rfl
      | cons c t =>
        simp only
        rw [ih]

/-- `strings.ReplaceAll` with a non-empty `old` replaces every occurrence, from left to
right without overlap. -/
theorem replacedAll_stringsReplaceAll (s old new : Str) (hold : old ≠ []) :
    ReplacedAll old new s (stringsReplaceAll s old new) := by
  have h := replacedAll_replaceFrom old new hold s.length s (le_refl _)
  unfold stringsReplaceAll
  by_cases hne : old = new
  · rw [if_pos hne]
    subst hne
    rw [replaceFrom_same] at h
    exact h
  · rw [if_neg hne, if_neg hold]
    exact h

/-! ### Every overlapping name fails for some content -/

theorem stringsContains_of_infix (sub y : Str) :
    ∀ x : Str, stringsContains (x ++ (sub ++ y)) sub = true := by
  intro x
  induction x with
  | nil =>
    rw [List.nil_append]
    cases h : sub ++ y with
    | nil =>
      have : sub = [] := (List.append_eq_nil.mp h).1
      subst this
      rfl
    | cons c t =>
      rw [stringsContains_cons, ← h, List.isPrefixOf_iff_prefix.mpr (List.prefix_append sub y)]
      rfl
  | cons c t ih =>
    rw [List.cons_append, stringsContains_cons, ih, Bool.or_true]

theorem replaceFrom_succ (old new : Str) (fuel : Nat) (s : Str) :
    replaceFrom old new (fuel + 1) s =
      if old.isPrefixOf s then new ++ replaceFrom old new fuel (s.drop old.length)
      else
        match s with
        | [] => []
        | c :: t => c :: replaceFrom old new fuel t := by
  cases s <;> rfl

theorem replaceFrom_of_absent (old new : Str) :
    ∀ (fuel : Nat) (s : Str), stringsContains s old = false →
      replaceFrom old new fuel s = s := by
  intro fuel
  induction fuel with
  | zero => intro s _; rfl
  | succ n ih =>
    intro s h
    cases s with
    | nil =>
      have hp : old.isPrefixOf ([] : Str) = false := by simpa [stringsContains] using h
      rw [replaceFrom_succ, if_neg (by simp [hp])]
    | cons c t =>
      rw [stringsContains_cons, Bool.or_eq_false_iff] at h
      rw [replaceFrom_succ, if_neg (by simp [h.1])]
      simp only
      rw [ih t h.2]

theorem replaceFrom_skip (old new rest : Str) :
    ∀ (pre : Str) (fuel : Nat), stringsContains (pre ++ old.dropLast) old = false →
      replaceFrom old new (pre.length + fuel) (pre ++ (old ++ rest)) =
        pre ++ replaceFrom old new fuel (old ++ rest) := by
  intro pre
  induction pre with
  | nil =>
    intro fuel _
    simp
  | cons c t ih =>
    intro fuel h
    rw [List.cons_append, stringsContains_cons, Bool.or_eq_false_iff] at h
    have hnp : ¬ old.isPrefixOf (c :: t ++ (old ++ rest)) = true := by
      intro hp
      rw [List.isPrefixOf_iff_prefix] at hp
      have hlen : old.length ≤ (c :: (t ++ old.dropLast)).length := by
        simp only [List.length_cons, List.length_append, List.length_dropLast]
        omega
      have hpre : c :: (t ++ old.dropLast) <+: c :: t ++ (old ++ rest) := by
        rw [List.cons_append, List.cons_prefix_cons]
        refine ⟨rfl, ?_⟩
        apply (List.prefix_append_right_inj t).mpr
        exact (List.dropLast_prefix old).trans (List.prefix_append old rest)
      have := List.prefix_of_prefix_length_le hp hpre hlen
      rw [← List.isPrefixOf_iff_prefix, h.1] at this
      cases this
    have hf : (c :: t).length + fuel = (t.length + fuel) + 1 := by
      simp only [List.length_cons]
      omega
    rw [hf, replaceFrom_succ, if_neg hnp]
    simp only [List.cons_append]
    rw [ih fuel h.2]

/-- `strings.ReplaceAll` on a text with a single occurrence of `old`. -/
theorem stringsReplaceAll_single (old new pre rest : Str) (hold : old ≠ []) (hne : old ≠ new)
    (hpre : stringsContains (pre ++ old.dropLast) old = false)
    (hrest : stringsContains rest old = false) :
    stringsReplaceAll (pre ++ (old ++ rest)) old new = pre ++ (new ++ rest) := by
  have hlen : 1 ≤ old.length := by
    cases old with
    | nil => exact absurd rfl hold
    | cons a t => simp
  have hf : (pre ++ (old ++ rest)).length = pre.length + ((old.length - 1 + rest.length) + 1) := by
    simp only [List.length_append]
    omega
  unfold stringsReplaceAll
  rw [if_neg hne, if_neg hold, hf, replaceFrom_skip old new rest pre _ hpre, replaceFrom_succ,
    if_pos (List.isPrefixOf_iff_prefix.mpr (List.prefix_append old rest)),
    List.drop_left, replaceFrom_of_absent old new _ rest hrest]

/-- In front of an occurrence of `AABBCCDD`, a proper beginning of the token starts no
earlier occurrence. -/
theorem replaceID_leftmost (w v : Str) (h : replaceID = w ++ v) (hv : v ≠ []) :
    stringsContains (w ++ replaceID.dropLast) replaceID = false := by
  have hw : w = replaceID.take w.length := by
    rw [h, List.take_left' rfl]
  have hlen : w.length < 8 := by
    have h1 := congrArg List.length h
    have h2 : 1 ≤ v.length := by
      cases v with
      | nil => exact absurd rfl hv
      | cons a t => simp
    have h3 : replaceID.length = 8 := rfl
    rw [List.length_append, h3] at h1
    omega
  rw [hw]
  generalize w.length = n at hlen
  interval_cases n <;> decide

/-- The condition of the amended C3 is as weak as can be: for every non-empty project name
that can overlap `AABBCCDD` there is a file content that holds the token and still holds
it after `strings.ReplaceAll`. -/
theorem overlap_keeps_placeholder (projectName : Str) (hne : projectName ≠ [])
    (h : canOverlap projectName replaceID = true) :
    ∃ content, stringsContains content replaceID = true ∧
      stringsContains (stringsReplaceAll content replaceID projectName) replaceID = true := by
  have hT : replaceID ≠ [] := by decide
  have hTlen : replaceID.length = 8 := rfl
  have hshort : stringsContains ([] ++ replaceID.dropLast) replaceID = false := by decide
  by_cases hPT : replaceID = projectName
  · refine ⟨replaceID, by decide, ?_⟩
    unfold stringsReplaceAll
    rw [if_pos hPT]
    decide
  unfold canOverlap at h
  rw [Bool.or_eq_true, List.any_eq_true, List.any_eq_true] at h
  rcases h with ⟨u, hu, hb⟩ | ⟨v, hv, hb⟩
  · rw [List.mem_tails] at hu
    rw [Bool.and_eq_true] at hb
    have hune : u ≠ [] := by
      intro e
      rw [e] at hb
      simp at hb
    obtain ⟨p0, hp0⟩ := hu
    unfold beginsEither at hb
    rw [Bool.or_eq_true, List.isPrefixOf_iff_prefix, List.isPrefixOf_iff_prefix] at hb
    rcases hb.2 with ⟨w, hw⟩ | ⟨y, hy⟩
    · have hwlen : w.length < replaceID.length := by
        have h1 := congrArg List.length hw
        have h2 : 1 ≤ u.length := by
          cases u with
          | nil => exact absurd rfl hune
          | cons a t => simp
        rw [List.length_append] at h1
        omega
      refine ⟨[] ++ (replaceID ++ w), stringsContains_of_infix _ _ _, ?_⟩
      rw [stringsReplaceAll_single replaceID projectName [] w hT hPT hshort
        (stringsContains_of_short _ _ hwlen)]
      have : [] ++ (projectName ++ w) = p0 ++ (replaceID ++ []) := by
        rw [← hp0, ← hw]
        simp
      rw [this]
      exact stringsContains_of_infix _ _ _
    · refine ⟨[] ++ (replaceID ++ []), stringsContains_of_infix _ _ _, ?_⟩
      rw [stringsReplaceAll_single replaceID projectName [] [] hT hPT hshort (by decide)]
      have : [] ++ (projectName ++ []) = p0 ++ (replaceID ++ y) := by
        rw [← hp0, ← hy]
        simp
      rw [this]
      exact stringsContains_of_infix _ _ _
  · rw [List.mem_tails] at hv
    rw [Bool.and_eq_true] at hb
    have hvne : v ≠ [] := by
      intro e
      rw [e] at hb
      simp at hb
    obtain ⟨w, hw⟩ := hv
    have hleft := replaceID_leftmost w v hw.symm hvne
    unfold beginsEither at hb
    rw [Bool.or_eq_true, List.isPrefixOf_iff_prefix, List.isPrefixOf_iff_prefix] at hb
    rcases hb.2 with ⟨post, hpost⟩ | ⟨q, hq⟩
    · refine ⟨w ++ (replaceID ++ []), stringsContains_of_infix _ _ _, ?_⟩
      rw [stringsReplaceAll_single replaceID projectName w [] hT hPT hleft (by decide)]
      have : w ++ (projectName ++ []) = [] ++ (replaceID ++ post) := by
        rw [← hw, ← hpost]
        simp
      rw [this]
      exact stringsContains_of_infix _ _ _
    · have hqlen : q.length < replaceID.length := by
        have h1 := congrArg List.length hq
        have h2 := congrArg List.length hw
        have h3 : 1 ≤ projectName.length := by
          cases projectName with
          | nil => exact absurd rfl hne
          | cons a t => simp
        rw [List.length_append] at h1 h2
        omega
      refine ⟨w ++ (replaceID ++ q), stringsContains_of_infix _ _ _, ?_⟩
      rw [stringsReplaceAll_single replaceID projectName w q hT hPT hleft
        (stringsContains_of_short _ _ hqlen)]
      have : w ++ (projectName ++ q) = [] ++ (replaceID ++ []) := by
        rw [hq, hw]
        simp
      rw [this]
      exact stringsContains_of_infix _ _ _

/-! ## The file system -/

theorem stat_of_find {fs : FS} {p : Path} {n : Node} (h : fs.find p = some n) :
    fs.stat p = .ok n := by
  simp [FS.stat, h]

theorem find_cons (k : Path) (n : Node) (rest : FS) (p : Path) :
    FS.find ((k, n) :: rest) p = if k = p then some n else FS.find rest p := rfl

theorem setContent_cons (k : Path) (n : Node) (rest : FS) (p : Path) (c : Str) :
    FS.setContent ((k, n) :: rest) p c =
      (k, if k = p then n.withContent c else n) :: FS.setContent rest p c := by
  simp only [FS.setContent, List.map_cons]
  split <;> rfl

theorem find_setContent (fs : FS) (p q : Path) (c : Str) :
    (fs.setContent p c).find q =
      (fs.find q).map (fun n => if q = p then n.withContent c else n) := by
  induction fs with
  | nil => rfl
  | cons e rest ih =>
    obtain ⟨k, n⟩ := e
    rw [setContent_cons, find_cons, find_cons]
    by_cases hq : k = q
    · subst hq
      simp
    · simp only [hq, if_false]
      exact ih

theorem find_setContent_file {fs : FS} {p : Path} {c0 : Str} (c : Str)
    (h : fs.find p = some (.file c0)) : (fs.setContent p c).find p = some (.file c) := by
  rw [find_setContent, h]
  simp [Node.withContent]

theorem keys_setContent (fs : FS) (p : Path) (c : Str) :
    (fs.setContent p c).map Prod.fst = fs.map Prod.fst := by
  induction fs with
  | nil => rfl
  | cons e rest ih =>
    obtain ⟨k, n⟩ := e
    rw [setContent_cons, List.map_cons, List.map_cons, ih]

theorem mem_of_find {fs : FS} {p : Path} {n : Node} (h : fs.find p = some n) : (p, n) ∈ fs := by
  induction fs with
  | nil => simp [FS.find] at h
  | cons e rest ih =>
    obtain ⟨k, m⟩ := e
    rw [find_cons] at h
    by_cases hk : k = p
    · rw [if_pos hk] at h
      cases h
      subst hk
      exact List.mem_cons_self _ _
    · rw [if_neg hk] at h
      exact List.mem_cons_of_mem _ (ih h)

theorem find_of_mem {fs : FS} (hnd : fs.keysNodup) {p : Path} {n : Node} (h : (p, n) ∈ fs) :
    fs.find p = some n := by
  induction fs with
  | nil => simp at h
  | cons e rest ih =>
    obtain ⟨k, m⟩ := e
    unfold FS.keysNodup at hnd ih
    rw [List.map_cons, List.nodup_cons] at hnd
    rw [find_cons]
    rcases List.mem_cons.mp h with h1 | h1
    · cases h1
      simp
    · have hk : k ≠ p := by
        intro e
        subst e
        exact hnd.1 (List.mem_map.mpr ⟨(k, n), h1, rfl⟩)
      rw [if_neg hk]
      exact ih hnd.2 h1

/-! ## The substitution walk -/

theorem walkFn_visit (projectName : Str) (s : St) (p : Path) (n : Node)
    (h : s.fs.find p = some n) :
    ∃ s1, walkFn projectName p (some n) none s = .ok none s1 ∧
      s1.cwd = s.cwd ∧ s1.out = s.out ∧ s1.trace = s.trace ++ visitTrace p n ∧
      s1.fs.map Prod.fst = s.fs.map Prod.fst ∧
      ∀ q, s1.fs.find q = if q = p then some (substNode projectName n) else s.fs.find q := by
  cases n with
  | dir =>
    refine ⟨s, ?_, rfl, rfl, ?_, rfl, ?_⟩
    · simp [walkFn]
    · simp [visitTrace]
    · intro q
      by_cases hq : q = p
      · subst hq
        simp [h, substNode]
      · simp [hq]
  | file c =>
    by_cases hc : stringsContains c replaceID = true
    · have h0 : (s.fs.setContent p []).find p = some (.file []) := find_setContent_file [] h
      refine ⟨{ cwd := s.cwd,
                fs := (s.fs.setContent p []).setContent p
                  (stringsReplaceAll c replaceID projectName),
                out := s.out,
                trace := s.trace ++ [.read p] ++ [.openTrunc p] ++ [.write p] },
              ?_, rfl, rfl, ?_, ?_, ?_⟩
      · simp [walkFn, readFileAt, openTruncAt, fileWriteString, stat_of_find h, hc, h0]
      · simp [visitTrace, hc]
      · simp only [keys_setContent]
      · intro q
        simp only [find_setContent]
        by_cases hq : q = p
        · subst hq
          simp [h, substNode, hc, Node.withContent]
        · simp [hq]
    · refine ⟨{ s with trace := s.trace ++ [.read p] }, ?_, rfl, rfl, ?_, rfl, ?_⟩
      · simp [walkFn, readFileAt, stat_of_find h, hc]
      · simp [visitTrace, hc]
      · intro q
        by_cases hq : q = p
        · subst hq
          simp [h, substNode, hc]
        · simp [hq]

theorem walkList_run (projectName : Str) :
    ∀ (L : List (Path × Node)) (s : St), (L.map Prod.fst).Nodup →
      (∀ e ∈ L, s.fs.find e.1 = some e.2) →
      ∃ s1, walkList (walkFn projectName) L s = .ok none s1 ∧
        s1.cwd = s.cwd ∧ s1.out = s.out ∧
        s1.trace = s.trace ++ L.flatMap (fun e => visitTrace e.1 e.2) ∧
        s1.fs.map Prod.fst = s.fs.map Prod.fst ∧
        ∀ q, s1.fs.find q =
          if q ∈ L.map Prod.fst then (s.fs.find q).map (substNode projectName)
          else s.fs.find q := by
  intro L
  induction L with
  | nil =>
    intro s _ _
    exact ⟨s, rfl, rfl, rfl, by simp, rfl, by simp⟩
  | cons e rest ih =>
    intro s hnd hfind
    obtain ⟨p, n⟩ := e
    rw [List.map_cons, List.nodup_cons] at hnd
    have hp : s.fs.find p = some n := hfind (p, n) (List.mem_cons_self _ _)
    obtain ⟨s1, hrun, hcwd, hout, htrace, hkeys, hf⟩ := walkFn_visit projectName s p n hp
    have hrest : ∀ e ∈ rest, s1.fs.find e.1 = some e.2 := by
      intro e he
      rw [hf]
      have hne : e.1 ≠ p := by
        intro h
        exact hnd.1 (List.mem_map.mpr ⟨e, he, h⟩)
      rw [if_neg hne]
      exact hfind e (List.mem_cons_of_mem _ he)
    obtain ⟨s2, hrun2, hcwd2, hout2, htrace2, hkeys2, hf2⟩ := ih s1 hnd.2 hrest
    refine ⟨s2, ?_, hcwd2.trans hcwd, hout2.trans hout, ?_, hkeys2.trans hkeys, ?_⟩
    · simp only [walkList, hrun]
      exact hrun2
    · rw [htrace2, htrace]
      simp
    · intro q
      rw [hf2, hf]
      by_cases hq : q = p
      · subst hq
        rw [if_neg hnd.1, if_pos rfl, List.map_cons, if_pos (List.mem_cons_self _ _), hp]
        rfl
      · rw [if_neg hq, List.map_cons]
        simp only [List.mem_cons, hq, false_or]

theorem mem_visitTrace {eff : Effect} {q : Path} {n : Node} (h : eff ∈ visitTrace q n) :
    ∃ c, n = .file c ∧
      (eff = .read q ∨
        (stringsContains c replaceID = true ∧ (eff = .openTrunc q ∨ eff = .write q))) := by
  cases n with
  | dir => simp [visitTrace] at h
  | file c =>
    refine ⟨c, rfl, ?_⟩
    by_cases hc : stringsContains c replaceID = true
    · simp only [visitTrace, hc, if_true, List.mem_cons, List.mem_singleton, List.not_mem_nil,
        or_false] at h
      rcases h with h | h | h
      · exact Or.inl h
      · exact Or.inr ⟨hc, Or.inl h⟩
      · exact Or.inr ⟨hc, Or.inr h⟩
    · simp only [visitTrace, hc, List.mem_singleton] at h
      exact Or.inl (by simpa using h)

theorem filepathWalk_run (projectName root : Str) (s : St) (r : Path)
    (hr : resolve s.fs s.cwd root = .ok r) (hroot : s.fs.find r ≠ none) (hnd : s.fs.keysNodup) :
    ∃ s1, filepathWalk root (walkFn projectName) s = .ok none s1 ∧
      s1.cwd = s.cwd ∧ s1.out = s.out ∧
      s1.trace = s.trace ++
        (s.fs.filter (fun e => isUnder r e.1)).flatMap (fun e => visitTrace e.1 e.2) ∧
      s1.fs.map Prod.fst = s.fs.map Prod.fst ∧
      ∀ q, s1.fs.find q =
        if isUnder r q = true then (s.fs.find q).map (substNode projectName)
        else s.fs.find q := by
  have hL : ((s.fs.filter (fun e => isUnder r e.1)).map Prod.fst).Nodup :=
    List.Nodup.sublist ((List.filter_sublist _).map Prod.fst) hnd
  have hfind : ∀ e ∈ s.fs.filter (fun e => isUnder r e.1), s.fs.find e.1 = some e.2 :=
    fun e he => find_of_mem hnd (List.mem_of_mem_filter he)
  obtain ⟨s1, hrun, hcwd, hout, htrace, hkeys, hf⟩ :=
    walkList_run projectName _ s hL hfind
  refine ⟨s1, ?_, hcwd, hout, htrace, hkeys, ?_⟩
  · obtain ⟨n, hn⟩ := Option.ne_none_iff_exists'.mp hroot
    simp only [filepathWalk, hr, stat_of_find hn]
    exact hrun
  · intro q
    rw [hf]
    by_cases hq : isUnder r q = true
    · rw [if_pos hq]
      cases hfq : s.fs.find q with
      | none => split <;> rfl
      | some n =>
        have : q ∈ (s.fs.filter (fun e => isUnder r e.1)).map Prod.fst :=
          List.mem_map.mpr ⟨(q, n), List.mem_filter.mpr ⟨mem_of_find hfq, hq⟩, rfl⟩
        rw [if_pos this]
    · rw [if_neg hq]
      have : q ∉ (s.fs.filter (fun e => isUnder r e.1)).map Prod.fst := by
        intro hmem
        obtain ⟨e, he, rfl⟩ := List.mem_map.mp hmem
        exact hq (List.mem_filter.mp he).2
      rw [if_neg this]

/-! ## Clean-up -/

theorem resolve_workDir (fs : FS) (cwd : Path) :
    resolve fs cwd workDir = .ok (cwd ++ [workDir]) := rfl

theorem cleanUp_apply (s : St) :
    cleanUp s = .ok () { s with fs := s.fs.removeAll (s.cwd ++ [workDir]),
                                trace := s.trace ++ [.removeAll (s.cwd ++ [workDir])] } := by
  have h : osRemoveAll workDir s =
      .ok none { s with fs := s.fs.removeAll (s.cwd ++ [workDir]),
                        trace := s.trace ++ [.removeAll (s.cwd ++ [workDir])] } := by
    unfold osRemoveAll
    rw [if_neg (by decide), if_neg (by decide), resolve_workDir]
  simp only [cleanUp, bind_apply, h, pure_apply]

theorem find_ne_none_of_mem {fs : FS} {p : Path} {n : Node} (h : (p, n) ∈ fs) :
    fs.find p ≠ none := by
  induction fs with
  | nil => simp at h
  | cons e rest ih =>
    obtain ⟨k, m⟩ := e
    rw [find_cons]
    by_cases hk : k = p
    · rw [if_pos hk]
      exact Option.some_ne_none _
    · rw [if_neg hk]
      rcases List.mem_cons.mp h with h1 | h1
      · cases h1
        exact absurd rfl hk
      · exact ih h1

/-- In a listing where every entry has its parent listed, an entry beneath a location
implies that the location itself is listed. -/
theorem find_ne_none_of_under {fs : FS} (hpl : fs.parentsListed) (q : Path) :
    ∀ (t : List Str) (n : Node), (q ++ t, n) ∈ fs → fs.find q ≠ none := by
  intro t
  induction t using List.reverseRecOn with
  | nil =>
    intro n h
    rw [List.append_nil] at h
    exact find_ne_none_of_mem h
  | append_singleton t x ih =>
    intro n h
    have hne : q ++ (t ++ [x]) ≠ [] := by simp
    have hpar := hpl _ h hne
    have hd : (q ++ (t ++ [x])).dropLast = q ++ t := by
      rw [← List.append_assoc, List.dropLast_concat]
    simp only at hpar
    rw [hd] at hpar
    exact ih .dir (mem_of_find hpar)

theorem removeAll_of_absent {fs : FS} (hpl : fs.parentsListed) {q : Path}
    (h : fs.find q = none) : fs.removeAll q = fs := by
  unfold FS.removeAll
  rw [List.filter_eq_self]
  intro e he
  obtain ⟨k, n⟩ := e
  cases hu : isUnder q k with
  | false => rfl
  | true =>
    exfalso
    unfold isUnder at hu
    rw [List.isPrefixOf_iff_prefix] at hu
    obtain ⟨t, rfl⟩ := hu
    exact find_ne_none_of_under hpl q t n he h

theorem removeAll_under (fs : FS) (q : Path) :
    ∀ e ∈ fs.removeAll q, isUnder q e.1 = false := by
  intro e he
  have := (List.mem_filter.mp he).2
  simpa using this

theorem removeAll_removeAll (fs : FS) (q : Path) : (fs.removeAll q).removeAll q = fs.removeAll q := by
  unfold FS.removeAll
  rw [List.filter_filter]
  simp

theorem find_removeAll (fs : FS) (p q : Path) :
    (fs.removeAll p).find q = if isUnder p q = true then none else fs.find q := by
  induction fs with
  | nil =>
    simp only [FS.removeAll, List.filter_nil, FS.find]
    split <;> rfl
  | cons e rest ih =>
    obtain ⟨k, n⟩ := e
    unfold FS.removeAll at ih ⊢
    rw [List.filter_cons, find_cons]
    cases hk : isUnder p k with
    | true =>
      simp only [Bool.not_true, Bool.false_eq_true, if_false]
      rw [ih]
      by_cases hq : k = q
      · subst hq
        rw [hk]
        rfl
      · rw [if_neg hq]
    | false =>
      simp only [Bool.not_false, if_true]
      rw [find_cons]
      by_cases hq : k = q
      · subst hq
        simp [hk]
      · rw [if_neg hq, ih, if_neg hq]

/-! ## The secret and the output -/

theorem generateSecret_some (r : List Nat) (s : St) :
    generateSecret (some r) s =
      .ok (hexEncodeToString ((List.range 32).map (fun i => r.getD i 0 % 256))) s := by
  simp only [generateSecret, randRead, List.length_replicate]
  rfl

/-- From the secret injection to the end of `main` the exit status, the output, the trace
and the working directory do not depend on the bytes of the random source, and the file
systems reached differ at most at one location. -/
theorem secret_tail_independent (r1 r2 : List Nat) (projectPath : Str) (s : St) :
    ∀ (x1 x2 : Res Unit),
      x1 = (mainSecret (some r1) projectPath >>= fun _ =>
        fmtPrint ("-- project (".toList ++ projectPath ++
          ") successfully installed!\n".toList) >>= fun _ => cleanUp) s →
      x2 = (mainSecret (some r2) projectPath >>= fun _ =>
        fmtPrint ("-- project (".toList ++ projectPath ++
          ") successfully installed!\n".toList) >>= fun _ => cleanUp) s →
      (x1.exitCode = x2.exitCode ∧ x1.st.out = x2.st.out ∧ x1.st.trace = x2.st.trace ∧
        x1.st.cwd = x2.st.cwd) ∧
      ∃ envFile : Path, ∀ q, q ≠ envFile → x1.st.fs.find q = x2.st.fs.find q := by
  intro x1 x2 h1 h2
  subst h1 h2
  cases hread : osReadFile (pathJoin [projectPath, ".env".toList])
      { s with out := s.out ++ [⟨.stdout, List.intercalate [' ']
        ["-- generating secure secret".toList] ++ ['\n']⟩] } with
  | halt h sa =>
    simp only [mainSecret, bind_apply, fmtPrintln, hread, Res.exitCode, Res.st, and_self,
      implies_true, exists_const]
  | ok a sa =>
    cases a with
    | error e =>
      simp only [mainSecret, bind_apply, fmtPrintln, hread, logFatal, Res.exitCode, Res.st,
        and_self, implies_true, exists_const]
    | ok b =>
      cases hopen : osOpenFile (pathJoin [projectPath, ".env".toList]) sa with
      | halt h sb =>
        simp only [mainSecret, bind_apply, fmtPrintln, hread, generateSecret_some, hopen,
          Res.exitCode, Res.st, and_self, implies_true, exists_const]
      | ok f sb =>
        cases f with
        | error e =>
          simp only [mainSecret, bind_apply, fmtPrintln, hread, generateSecret_some, hopen,
            logFatal, Res.exitCode, Res.st, and_self, implies_true, exists_const]
        | ok file =>
          cases hfind : sb.fs.find file with
          | none =>
            simp only [mainSecret, bind_apply, fmtPrintln, hread, generateSecret_some, hopen,
              fileWriteString, hfind, logFatal, Res.exitCode, Res.st, and_self, implies_true,
              exists_const]
          | some n =>
            cases n with
            | dir =>
              simp only [mainSecret, bind_apply, fmtPrintln, hread, generateSecret_some, hopen,
                fileWriteString, hfind, logFatal, Res.exitCode, Res.st, and_self, implies_true,
                exists_const]
            | file old =>
              simp only [mainSecret, bind_apply, fmtPrintln, hread, generateSecret_some, hopen,
                fileWriteString, hfind, fmtPrint, cleanUp_apply, pure_apply, Res.exitCode, Res.st,
                and_self, true_and]
              refine ⟨file, ?_⟩
              intro q hq
              simp only [find_removeAll, find_setContent, hq, if_false]

/-! ## Settled properties -/

/-- C1: with exactly one argument `main` does not go on with an empty install path;
the index expression `args[1]` of line 33 panics (index 1 out of range for length 1),
before the program prints anything and before the file system is touched. -/
theorem main_one_argument_panics (repo : Except Str FS) (rand : Option (List Nat))
    (projectName : Str) (s : St) :
    main repo rand [projectName] s = .halt (.panicIndex 1 1) s := by
  simp [main, mainArgs, index]

/-- C2 as amended: for every project name and every non-empty install path, if the target
folder `D/P` (the cleaned join of line 40) exists the run stops with exit status 1 before
any clone, rename or substitution: the file system and the trace are those of the start
and the only output is one diagnostic on standard error, `project folder already exists`
unless `os.Stat` reports the install path itself as not existing (as for `nope/..`), in
which case it is `install path does not exist`; the latter is excluded when the install
path exists. -/
theorem main_existing_target_stops (repo : Except Str FS) (rand : Option (List Nat))
    (P D : Str) (rest : List Str) (s : St) (t : Path) (n : Node)
    (hD : D ≠ []) (ht : resolve s.fs s.cwd (pathJoin [D, P]) = .ok t) (hn : s.fs.find t = some n) :
    main repo rand (P :: D :: rest) s =
      .halt (.exit 1) { s with out := s.out ++
        [⟨.stderr, (if statNotExist s D = true then "install path does not exist".toList
          else "project folder already exists".toList) ++ ['\n']⟩] } ∧
    (main repo rand (P :: D :: rest) s).st.fs = s.fs ∧
    (main repo rand (P :: D :: rest) s).st.trace = s.trace ∧
    ((∃ d m, resolve s.fs s.cwd D = .ok d ∧ s.fs.find d = some m) → statNotExist s D = false) := by
  have hstat : statName s (pathJoin [D, P]) = .ok n := by
    simp only [statName, ht, stat_of_find hn]
  have hmain : main repo rand (P :: D :: rest) s =
      .halt (.exit 1) { s with out := s.out ++
        [⟨.stderr, (if statNotExist s D = true then "install path does not exist".toList
          else "project folder already exists".toList) ++ ['\n']⟩] } := by
    have hok : osIsNotExist (errOf (Except.ok n : Except Err Node)) = false := rfl
    cases he : osIsNotExist (errOf (statName s D)) <;>
      simp [main, mainArgs, index, statNotExist, osStat, hD, hstat, logFatal, he, hok]
  refine ⟨hmain, ?_, ?_, ?_⟩
  · rw [hmain]; rfl
  · rw [hmain]; rfl
  · rintro ⟨d, m, hd, hm⟩
    simp only [statNotExist, statName, hd, stat_of_find hm, errOf, osIsNotExist]

theorem main_existing_target_stops_witness :
    ((['.'] ≠ [] ∧
      resolve takenSt.fs takenSt.cwd (pathJoin [['.'], "myapp".toList]) =
        .ok ["home".toList, "myapp".toList] ∧
      takenSt.fs.find ["home".toList, "myapp".toList] = some .dir) ∧
    main (.ok demoRepo) (some (List.range 32)) ["myapp".toList, ['.']] takenSt =
      .halt (.exit 1) { takenSt with out :=
        [⟨.stderr, "project folder already exists\n".toList⟩] }) ∧
    (("nope/..".toList ≠ [] ∧
      resolve takenSt.fs takenSt.cwd (pathJoin ["nope/..".toList, "myapp".toList]) =
        .ok ["home".toList, "myapp".toList] ∧
      takenSt.fs.find ["home".toList, "myapp".toList] = some .dir) ∧
    main (.ok demoRepo) (some (List.range 32)) ["myapp".toList, "nope/..".toList] takenSt =
      .halt (.exit 1) { takenSt with out :=
        [⟨.stderr, "install path does not exist\n".toList⟩] }) :=
  ⟨⟨⟨by decide, rfl, by decide⟩,
    (main_existing_target_stops (.ok demoRepo) (some (List.range 32)) "myapp".toList ['.'] []
      takenSt ["home".toList, "myapp".toList] .dir (by decide) rfl (by decide)).1.trans rfl⟩,
   ⟨⟨by decide, rfl, by decide⟩,
    (main_existing_target_stops (.ok demoRepo) (some (List.range 32)) "myapp".toList
      "nope/..".toList [] takenSt ["home".toList, "myapp".toList] .dir (by decide) rfl
      (by decide)).1.trans rfl⟩⟩

/-- C2 as stated fails for the empty install path: with the arguments `myapp` and `""`
and an existing folder `myapp`, no check is made; the repository is cloned and the run
stops only at the promotion of the bootstrap folder, with the diagnostic of the rename
and not `project folder already exists`. -/
theorem main_empty_install_path_counterexample :
    resolve takenSt.fs takenSt.cwd (pathJoin [[], "myapp".toList]) =
      .ok ["home".toList, "myapp".toList] ∧
    takenSt.fs.find ["home".toList, "myapp".toList] = some .dir ∧
    ∃ s1, main (.ok demoRepo) (some (List.range 32)) ["myapp".toList, []] takenSt =
        .halt (.exit 1) s1 ∧
      Effect.clone ∈ s1.trace ∧
      s1.out.getLast? =
        some ⟨.stderr, "rename superkit/bootstrap myapp: file exists\n".toList⟩ ∧
      (⟨.stderr, "project folder already exists\n".toList⟩ : Msg) ∉ s1.out :=
  ⟨rfl, by decide, _, rfl, by decide, by decide, by decide⟩

/-- C3 as amended: for every project name that cannot overlap the token `AABBCCDD` (the
name neither contains the token nor occurs in it, and no non-empty end of one is a
beginning of the other; such a name is not empty), and a listing that names each
location once, the substitution walk completes and afterwards no regular file at or
beneath the project directory holds `AABBCCDD`.  Every other non-empty name fails for
some content (`overlap_keeps_placeholder`). -/
theorem walk_leaves_no_placeholder (projectName root : Str) (s : St) (r : Path)
    (hno : canOverlap projectName replaceID = false)
    (hr : resolve s.fs s.cwd root = .ok r) (hroot : s.fs.find r ≠ none) (hnd : s.fs.keysNodup) :
    projectName ≠ [] ∧
    ∃ s1, filepathWalk root (walkFn projectName) s = .ok none s1 ∧
      ∀ p c, s1.fs.find p = some (.file c) → isUnder r p = true →
        stringsContains c replaceID = false := by
  obtain ⟨s1, hrun, -, -, -, -, hf⟩ := filepathWalk_run projectName root s r hr hroot hnd
  refine ⟨?_, s1, hrun, ?_⟩
  · intro e
    rw [e] at hno
    exact absurd hno (by decide)
  intro p c hp hu
  rw [hf, if_pos hu] at hp
  cases hfp : s.fs.find p with
  | none => rw [hfp] at hp; cases hp
  | some n =>
    rw [hfp] at hp
    cases n with
    | dir => simp [substNode] at hp
    | file c0 =>
      by_cases hc : stringsContains c0 replaceID = true
      · simp only [Option.map_some', substNode, hc, if_true, Option.some.injEq,
          Node.file.injEq] at hp
        rw [← hp]
        exact stringsContains_replaceAll_of_no_overlap _ _ _ (by decide) hno
      · have hc1 : stringsContains c0 replaceID = false := by simpa using hc
        simp only [Option.map_some', substNode, hc1, Option.some.injEq] at hp
        simp only [Bool.false_eq_true, if_false, Node.file.injEq] at hp
        rw [← hp]
        exact hc1

theorem walk_leaves_no_placeholder_witness :
    canOverlap "MyApp".toList replaceID = false ∧
    "MyApp".toList ≠ [] ∧
    ∃ s1, filepathWalk "MyApp".toList (walkFn "MyApp".toList) (overlapSt "MyApp".toList) =
        .ok none s1 ∧
      ∀ p c, s1.fs.find p = some (.file c) → isUnder ["home".toList, "MyApp".toList] p = true →
        stringsContains c replaceID = false :=
  ⟨by decide, walk_leaves_no_placeholder "MyApp".toList "MyApp".toList (overlapSt "MyApp".toList)
    ["home".toList, "MyApp".toList] (by decide) rfl (by decide) (by decide)⟩

/-- C3 as stated fails: with the project name `Demo` the file content `AABBCCDAABBCCDD`
becomes `AABBCCDDemo`, which holds the placeholder again; with the project name
`AABBCCDD` itself the content is left as it is. -/
theorem walk_placeholder_counterexample :
    ("Demo".toList ≠ [] ∧
      ∃ s1, filepathWalk "Demo".toList (walkFn "Demo".toList) (overlapSt "Demo".toList) =
          .ok none s1 ∧
        s1.fs.find ["home".toList, "Demo".toList, "main.go".toList] =
          some (.file "AABBCCDDemo".toList) ∧
        isUnder ["home".toList, "Demo".toList] ["home".toList, "Demo".toList, "main.go".toList] = true ∧
        stringsContains "AABBCCDDemo".toList replaceID = true) ∧
    ("AABBCCDD".toList ≠ [] ∧
      ∃ s1, filepathWalk "AABBCCDD".toList (walkFn "AABBCCDD".toList) (overlapSt "AABBCCDD".toList) =
          .ok none s1 ∧
        s1.fs.find ["home".toList, "AABBCCDD".toList, "main.go".toList] =
          some (.file "AABBCCDAABBCCDD".toList) ∧
        stringsContains "AABBCCDAABBCCDD".toList replaceID = true) := by
  refine ⟨⟨by decide, _, rfl, by decide, by decide, by decide⟩,
    ⟨by decide, _, rfl, by decide, by decide⟩⟩

/-- C4: the substitution walk (install.go:65-92) over a listing that names each location
once completes and changes file contents only as specified.  Every regular file at or
beneath the root whose content holds `AABBCCDD` ends with the result of
`strings.ReplaceAll`, which is the content with every occurrence, left to right without
overlap, replaced by the project name, and is written; every regular file without the
token (and every one outside the root) keeps its content and is neither opened for
writing nor written; a directory stays a directory and is not read or written; the
listed paths are the same as before. -/
theorem walk_substitutes (projectName root : Str) (s : St) (r : Path)
    (hr : resolve s.fs s.cwd root = .ok r) (hroot : s.fs.find r ≠ none) (hnd : s.fs.keysNodup) :
    ∃ s1 added, filepathWalk root (walkFn projectName) s = .ok none s1 ∧
      s1.trace = s.trace ++ added ∧ s1.out = s.out ∧
      s1.fs.map Prod.fst = s.fs.map Prod.fst ∧
      (∀ p c, s.fs.find p = some (.file c) → isUnder r p = true →
        stringsContains c replaceID = true →
        s1.fs.find p = some (.file (stringsReplaceAll c replaceID projectName)) ∧
        ReplacedAll replaceID projectName c (stringsReplaceAll c replaceID projectName) ∧
        Effect.write p ∈ added) ∧
      (∀ p c, s.fs.find p = some (.file c) →
        isUnder r p = false ∨ stringsContains c replaceID = false →
        s1.fs.find p = some (.file c) ∧ Effect.openTrunc p ∉ added ∧ Effect.write p ∉ added) ∧
      (∀ p, s.fs.find p = some .dir →
        s1.fs.find p = some .dir ∧ Effect.read p ∉ added ∧ Effect.openTrunc p ∉ added ∧
        Effect.write p ∉ added) := by
  obtain ⟨s1, hrun, -, hout, htrace, hkeys, hf⟩ := filepathWalk_run projectName root s r hr hroot hnd
  have hadded : ∀ eff p, eff ∈ (s.fs.filter (fun e => isUnder r e.1)).flatMap
      (fun e => visitTrace e.1 e.2) → (eff = .read p ∨ eff = .openTrunc p ∨ eff = .write p) →
      ∃ c, s.fs.find p = some (.file c) ∧ isUnder r p = true ∧
        (eff = .read p ∨ stringsContains c replaceID = true) := by
    intro eff p hmem hp
    obtain ⟨e, he, hv⟩ := List.mem_flatMap.mp hmem
    obtain ⟨c, hn, hcase⟩ := mem_visitTrace hv
    obtain ⟨hefs, hunder⟩ := List.mem_filter.mp he
    have hkey : e.1 = p := by
      rcases hcase with h | ⟨_, h | h⟩ <;> rcases hp with h2 | h2 | h2 <;>
        rw [h] at h2 <;> cases h2 <;> rfl
    have hfp : s.fs.find p = some (.file c) := by
      rw [← hkey, ← hn]
      exact find_of_mem hnd hefs
    refine ⟨c, hfp, hkey ▸ hunder, ?_⟩
    rcases hcase with h | ⟨h, _⟩
    · rw [hkey] at h
      exact Or.inl h
    · exact Or.inr h
  refine ⟨s1, _, hrun, htrace, hout, hkeys, ?_, ?_, ?_⟩
  · intro p c hp hu hc
    refine ⟨?_, replacedAll_stringsReplaceAll _ _ _ (by decide), ?_⟩
    · rw [hf, if_pos hu, hp]
      simp [substNode, hc]
    · refine List.mem_flatMap.mpr ⟨(p, .file c), List.mem_filter.mpr ⟨mem_of_find hp, hu⟩, ?_⟩
      simp [visitTrace, hc]
  · intro p c hp hcase
    refine ⟨?_, ?_, ?_⟩
    · rw [hf, hp]
      rcases hcase with h | h
      · simp [h]
      · simp [substNode, h]
    · intro hmem
      obtain ⟨c1, hc1, hu, h⟩ := hadded _ p hmem (Or.inr (Or.inl rfl))
      rw [hp] at hc1
      cases hc1
      rcases h with h | h
      · cases h
      · rcases hcase with h2 | h2
        · rw [hu] at h2; cases h2
        · rw [h] at h2; cases h2
    · intro hmem
      obtain ⟨c1, hc1, hu, h⟩ := hadded _ p hmem (Or.inr (Or.inr rfl))
      rw [hp] at hc1
      cases hc1
      rcases h with h | h
      · cases h
      · rcases hcase with h2 | h2
        · rw [hu] at h2; cases h2
        · rw [h] at h2; cases h2
  · intro p hp
    refine ⟨?_, ?_, ?_, ?_⟩
    · rw [hf, hp]
      simp [substNode]
    · intro hmem
      obtain ⟨c1, hc1, -, -⟩ := hadded _ p hmem (Or.inl rfl)
      rw [hp] at hc1
      cases hc1
    · intro hmem
      obtain ⟨c1, hc1, -, -⟩ := hadded _ p hmem (Or.inr (Or.inl rfl))
      rw [hp] at hc1
      cases hc1
    · intro hmem
      obtain ⟨c1, hc1, -, -⟩ := hadded _ p hmem (Or.inr (Or.inr rfl))
      rw [hp] at hc1
      cases hc1

theorem walk_substitutes_witness :
    ∃ s1 added, filepathWalk "myapp".toList (walkFn "myapp".toList) demoProjectSt = .ok none s1 ∧
      s1.trace = demoProjectSt.trace ++ added ∧ s1.out = demoProjectSt.out ∧
      s1.fs.map Prod.fst = demoProjectSt.fs.map Prod.fst ∧
      (∀ p c, demoProjectSt.fs.find p = some (.file c) →
        isUnder ["home".toList, "myapp".toList] p = true →
        stringsContains c replaceID = true →
        s1.fs.find p = some (.file (stringsReplaceAll c replaceID "myapp".toList)) ∧
        ReplacedAll replaceID "myapp".toList c (stringsReplaceAll c replaceID "myapp".toList) ∧
        Effect.write p ∈ added) ∧
      (∀ p c, demoProjectSt.fs.find p = some (.file c) →
        isUnder ["home".toList, "myapp".toList] p = false ∨ stringsContains c replaceID = false →
        s1.fs.find p = some (.file c) ∧ Effect.openTrunc p ∉ added ∧ Effect.write p ∉ added) ∧
      (∀ p, demoProjectSt.fs.find p = some .dir →
        s1.fs.find p = some .dir ∧ Effect.read p ∉ added ∧ Effect.openTrunc p ∉ added ∧
        Effect.write p ∉ added) :=
  walk_substitutes "myapp".toList "myapp".toList demoProjectSt ["home".toList, "myapp".toList]
    rfl (by decide) (by decide)

/-- C5: for every initial content of the `.env` file and every 32-byte value of the random
source, the secret injection (install.go:105-121) completes, the file then holds the
initial content with every `{{app_secret}}` replaced by the hexadecimal secret, and that
content has no occurrence of `{{app_secret}}`. -/
theorem mainSecret_no_placeholder (bytes : List Nat) (projectPath : Str) (s : St)
    (p : Path) (c : Str)
    (hlen : bytes.length = 32) (hbyte : ∀ b ∈ bytes, b < 256)
    (hp : resolve s.fs s.cwd (pathJoin [projectPath, ".env".toList]) = .ok p)
    (hc : s.fs.find p = some (.file c)) :
    ∃ s1, mainSecret (some bytes) projectPath s = .ok () s1 ∧
      s1.fs.find p =
        some (.file (stringsReplaceAll c secretPlaceholder (hexEncodeToString bytes))) ∧
      stringsContains (stringsReplaceAll c secretPlaceholder (hexEncodeToString bytes))
        secretPlaceholder = false := by
  have hgen := generateSecret_bytes bytes
    { s with out := s.out ++ [⟨.stdout, "-- generating secure secret\n".toList⟩],
             trace := s.trace ++ [.read p] } hlen hbyte
  have hl : (hexEncodeToString bytes).length = 64 := by rw [hexEncode_length, hlen]
  have hdig := hexEncode_digits bytes
  have hfree : stringsContains
      (stringsReplaceAll c secretPlaceholder (hexEncodeToString bytes)) secretPlaceholder = false := by
    apply stringsContains_replaceAll_ends
    · decide
    · intro ch hch hmem
      have := hdig ch hmem
      simp only [secretPlaceholder] at hch
      have e : ch = '{' := by simpa using hch.symm
      subst e
      exact absurd this (by decide)
    · intro ch hch hmem
      have := hdig ch hmem
      simp only [secretPlaceholder] at hch
      have e : ch = '}' := by simpa using hch.symm
      subst e
      exact absurd this (by decide)
    · rw [hl]; decide
  have hc0 : (s.fs.setContent p []).find p = some (.file []) := find_setContent_file [] hc
  refine ⟨{ cwd := s.cwd,
            fs := (s.fs.setContent p []).setContent p
              (stringsReplaceAll c secretPlaceholder (hexEncodeToString bytes)),
            out := s.out ++ [⟨.stdout, "-- generating secure secret\n".toList⟩],
            trace := s.trace ++ [.read p] ++ [.openTrunc p] ++ [.write p] }, ?_, ?_, hfree⟩
  · simp only [mainSecret, bind_apply, fmtPrintln, osReadFile, hp, readFileAt, stat_of_find hc,
      osOpenFile, openTruncAt, fileWriteString, hc0, List.drop_nil, List.append_nil]
    have hgen2 := hgen
    rw [show List.intercalate [' '] ["-- generating secure secret".toList] ++ ['\n'] =
      "-- generating secure secret\n".toList from by decide]
    rw [hgen2]
    simp only [hp, stat_of_find hc, hc0, List.drop_nil, List.append_nil, pure_apply, bind_apply,
      fileWriteString]
  · exact find_setContent_file _ hc0

theorem mainSecret_no_placeholder_witness :
    ∃ s1, mainSecret (some (List.range 32)) "myapp".toList demoProjectSt = .ok () s1 ∧
      s1.fs.find ["home".toList, "myapp".toList, ".env".toList] =
        some (.file (stringsReplaceAll "S={{app_secret}}\n".toList secretPlaceholder
          (hexEncodeToString (List.range 32)))) ∧
      stringsContains (stringsReplaceAll "S={{app_secret}}\n".toList secretPlaceholder
          (hexEncodeToString (List.range 32))) secretPlaceholder = false :=
  mainSecret_no_placeholder (List.range 32) "myapp".toList demoProjectSt
    ["home".toList, "myapp".toList, ".env".toList] "S={{app_secret}}\n".toList
    (by decide) (by decide) rfl (by decide)

/-- C6: for every 32-byte output of the random source `generateSecret` returns, without
touching the state, a text of exactly 64 characters, each a lowercase hexadecimal digit,
that reads back (two digits per byte, high nibble first) as those 32 bytes. -/
theorem generateSecret_hex (bytes : List Nat) (s : St)
    (hlen : bytes.length = 32) (hbyte : ∀ b ∈ bytes, b < 256) :
    ∃ secret, generateSecret (some bytes) s = .ok secret s ∧
      secret = hexEncodeToString bytes ∧
      secret.length = 64 ∧
      (∀ c ∈ secret, isLowerHexDigit c = true) ∧
      hexDecode secret = some bytes := by
  refine ⟨hexEncodeToString bytes, generateSecret_bytes bytes s hlen hbyte, rfl, ?_,
    hexEncode_digits bytes, hexDecode_encode bytes hbyte⟩
  rw [hexEncode_length, hlen]

theorem generateSecret_hex_witness :
    ∃ secret, generateSecret (some (List.range 32)) demoSt = .ok secret demoSt ∧
      secret = hexEncodeToString (List.range 32) ∧
      secret.length = 64 ∧
      (∀ c ∈ secret, isLowerHexDigit c = true) ∧
      hexDecode secret = some (List.range 32) :=
  generateSecret_hex (List.range 32) demoSt (by decide) (by decide)

/-- C7 as amended: when the run ends in success, nothing is listed at or beneath the
working clone directory `superkit` in the final state. -/
theorem main_success_removes_workDir (repo : Except Str FS) (rand : Option (List Nat))
    (args : List Str) (s s1 : St) (h : main repo rand args s = .ok () s1) :
    s1.fs.find (s1.cwd ++ [workDir]) = none ∧
    ∀ e ∈ s1.fs, isUnder (s1.cwd ++ [workDir]) e.1 = false := by
  unfold main at h
  obtain ⟨a, sa, -, h⟩ := bind_ok h
  obtain ⟨pp, sb, -, h⟩ := bind_ok h
  obtain ⟨u, sc, -, h⟩ := bind_ok h
  obtain ⟨v, sd, -, h⟩ := bind_ok h
  rw [cleanUp_apply] at h
  cases h
  have hu := removeAll_under sd.fs (sd.cwd ++ [workDir])
  refine ⟨?_, hu⟩
  cases hf : (sd.fs.removeAll (sd.cwd ++ [workDir])).find (sd.cwd ++ [workDir]) with
  | none => rfl
  | some n =>
    have hself : isUnder (sd.cwd ++ [workDir]) (sd.cwd ++ [workDir]) = true := by
      unfold isUnder
      rw [List.isPrefixOf_iff_prefix]
    have := hu _ (mem_of_find hf)
    rw [hself] at this
    cases this

theorem main_success_removes_workDir_witness :
    ∃ s1, main (.ok demoRepo) (some (List.range 32)) ["myapp".toList, ['.']] demoSt =
        .ok () s1 ∧
      s1.fs.find (s1.cwd ++ [workDir]) = none ∧
      ∀ e ∈ s1.fs, isUnder (s1.cwd ++ [workDir]) e.1 = false :=
  ⟨_, rfl, main_success_removes_workDir (.ok demoRepo) (some (List.range 32))
    ["myapp".toList, ['.']] demoSt _ rfl⟩

/-- C7 as stated fails: a run that stops at the promotion of the bootstrap folder (the
target folder exists) ends with exit status 1 and leaves the cloned `superkit` directory
and what is beneath it in place. -/
theorem main_failure_keeps_workDir_counterexample :
    ∃ s1, main (.ok demoRepo) (some (List.range 32)) ["myapp".toList, []] takenSt =
        .halt (.exit 1) s1 ∧
      s1.fs.find ["home".toList, "superkit".toList] = some .dir ∧
      s1.fs.find ["home".toList, "superkit".toList, "bootstrap".toList, "go.mod".toList] =
        some (.file "module AABBCCDD\n".toList) :=
  ⟨_, rfl, by decide, by decide⟩

/-- C8: `cleanUp` is idempotent.  In a state whose listing has every parent listed and in
which `superkit` does not exist, it returns without error and leaves the file system and
the output as they are; and from every state a second `cleanUp` returns without error
and changes nothing after the first, after which nothing is listed at or beneath
`superkit`. -/
theorem cleanUp_idempotent (s : St) :
    (s.fs.parentsListed → s.fs.find (s.cwd ++ [workDir]) = none →
      ∃ s1, cleanUp s = .ok () s1 ∧ s1.fs = s.fs ∧ s1.out = s.out ∧ s1.cwd = s.cwd) ∧
    (∃ s1 s2, cleanUp s = .ok () s1 ∧ cleanUp s1 = .ok () s2 ∧
      s2.fs = s1.fs ∧ s2.out = s1.out ∧ s2.cwd = s1.cwd ∧
      ∀ e ∈ s1.fs, isUnder (s.cwd ++ [workDir]) e.1 = false) := by
  constructor
  · intro hpl habs
    exact ⟨_, cleanUp_apply s, removeAll_of_absent hpl habs, rfl, rfl⟩
  · refine ⟨_, _, cleanUp_apply s, cleanUp_apply _, ?_, rfl, rfl, ?_⟩
    · exact removeAll_removeAll _ _
    · exact removeAll_under _ _

theorem cleanUp_idempotent_witness :
    (demoSt.fs.parentsListed ∧ demoSt.fs.find (demoSt.cwd ++ [workDir]) = none) ∧
    (∃ s1, cleanUp demoSt = .ok () s1 ∧ s1.fs = demoSt.fs ∧ s1.out = demoSt.out ∧
      s1.cwd = demoSt.cwd) :=
  ⟨⟨by decide, by decide⟩, (cleanUp_idempotent demoSt).1 (by decide) (by decide)⟩

/-- C9: with an empty argument list `main` prints the usage text on standard output and
exits with status 1; `args[0]` is not evaluated (no panic), nothing is cloned and the
file system is not touched. -/
theorem main_no_arguments_usage (repo : Except Str FS) (rand : Option (List Nat)) (s : St) :
    main repo rand [] s = .halt (.exit 1) { s with out := s.out ++ usageMessages } ∧
    (main repo rand [] s).exitCode = 1 ∧
    (main repo rand [] s).st.fs = s.fs ∧
    (main repo rand [] s).st.trace = s.trace ∧
    (∀ m ∈ usageMessages, m.stream = Stream.stdout) := by
  have h : main repo rand [] s = .halt (.exit 1) { s with out := s.out ++ usageMessages } := by
    simp [main, mainArgs, usage_apply]
  refine ⟨h, ?_, ?_, ?_, ?_⟩
  · rw [h]; rfl
  · rw [h]; rfl
  · rw [h]; rfl
  · decide

/-- C10: the secret is not shown.  Two runs with the same arguments, the same initial
state and the same clone result that differ only in the bytes delivered by the random
source write the same messages to standard output and standard error, end with the same
exit status and make the same calls; the file systems they reach differ at most at one
location, the environment file that received the secret. -/
theorem main_output_independent_of_secret (repo : Except Str FS) (r1 r2 : List Nat)
    (args : List Str) (s : St) :
    (main repo (some r1) args s).st.out = (main repo (some r2) args s).st.out ∧
    (main repo (some r1) args s).exitCode = (main repo (some r2) args s).exitCode ∧
    (main repo (some r1) args s).st.trace = (main repo (some r2) args s).st.trace ∧
    ∃ envFile : Path, ∀ q, q ≠ envFile →
      (main repo (some r1) args s).st.fs.find q = (main repo (some r2) args s).st.fs.find q := by
  simp only [main, bind_apply]
  cases hargs : mainArgs args s with
  | halt h sa => exact ⟨rfl, rfl, rfl, [], fun _ _ => rfl⟩
  | ok a sa =>
    obtain ⟨projectName, installPath⟩ := a
    simp only
    cases hsc : mainScaffold repo projectName installPath sa with
    | halt h sb => exact ⟨rfl, rfl, rfl, [], fun _ _ => rfl⟩
    | ok projectPath sb =>
      simp only
      obtain ⟨⟨he, ho, ht, -⟩, envFile, hfs⟩ :=
        secret_tail_independent r1 r2 projectPath sb _ _ rfl rfl
      simp only [bind_apply] at he ho ht hfs
      exact ⟨ho, he, ht, envFile, hfs⟩

end Superkit
